import Mathlib

/-!
Verification of the jsoxente interpreter (a Lox-style scripting language
implemented in JavaScript) against its natural-language specification.

The development shallowly embeds the pipeline of the repository:
  * `src/src/Scanner.js`    — the lexer (`Oxente.scanTokens`),
  * `src/src/Parser.js`     — the recursive-descent parser (`Oxente.parseProgram`),
  * `src/src/Interpreter.js`, `src/src/Environment.js`, `src/src/Function.js`
                            — the tree-walking evaluator (`Oxente.run1` and wrappers),
  * the driver `run` function (scan, parse, bail out on static errors, interpret).

JavaScript numbers (IEEE-754 doubles) are modelled as rationals `ℚ`; machine
floating point is not exercised by any property proved here (all concrete
programs use small integers).  JavaScript `Map`s are modelled as association
lists with replace-or-append insertion; object reference identity of callable
values is modelled by a unique allocation id attached to every function value.
Loops in the scanner and the parser/interpreter are modelled with explicit
fuel; for the scanner the fuel bound `source.length + 1` is proved sufficient
(the termination theorem for claim C8).
-/

namespace Oxente

/-- Token kinds, from `src/src/TokenType.js` (the full closed set, including
`BREAK`, which the TokenType module declares). -/
inductive TokType where
  | LEFT_PAREN | RIGHT_PAREN | LEFT_BRACE | RIGHT_BRACE | COMMA | DOT | MINUS
  | PLUS | SEMICOLON | SLASH | STAR | QUESTION | COLON
  | BANG | BANG_EQUAL | EQUAL | EQUAL_EQUAL
  | GREATER | GREATER_EQUAL | LESS | LESS_EQUAL
  | IDENTIFIER | STRING | NUMBER
  | AND | CLASS | ELSE | FALSE | FUN | FOR | IF | NIL | OR | PRINT | RETURN
  | SUPER | THIS | TRUE | VAR | WHILE | BREAK
  | EOF
deriving DecidableEq, Repr

/-- A token's literal payload (`null`, a number or a string in the JS source;
booleans and nil only ever appear via the parser's `Literal` nodes). -/
inductive Lit where
  | lnil
  | lbool (b : Bool)
  | lnum (q : ℚ)
  | lstr (s : String)
deriving DecidableEq, Repr

/-- `src/Token.js`: kind, exact lexeme, optional literal value, 1-based line. -/
structure Token where
  type : TokType
  lexeme : String
  literal : Option Lit
  line : ℕ
deriving DecidableEq, Repr

/-- The scanner's reserved-word table, from `src/src/Scanner.js` lines 13-30.
Note: faithful to the source, the table has no entry for `break` (even though
`TokenType.BREAK` exists and the parser consumes it). -/
def keywords (s : String) : Option TokType :=
  if s = "and" then some .AND
  else if s = "class" then some .CLASS
  else if s = "else" then some .ELSE
  else if s = "false" then some .FALSE
  else if s = "for" then some .FOR
  else if s = "fun" then some .FUN
  else if s = "if" then some .IF
  else if s = "nil" then some .NIL
  else if s = "or" then some .OR
  else if s = "print" then some .PRINT
  else if s = "return" then some .RETURN
  else if s = "super" then some .SUPER
  else if s = "this" then some .THIS
  else if s = "true" then some .TRUE
  else if s = "var" then some .VAR
  else if s = "while" then some .WHILE
  else none

/-- The scanner's mutable fields (`Scanner` class): the source (as characters),
the emitted tokens, the reported lexical errors (line, message), and the
`start`/`current`/`line` cursors. -/
structure ScanState where
  source : List Char
  tokens : List Token
  errors : List (ℕ × String)
  start : ℕ
  current : ℕ
  line : ℕ
deriving Repr

/-- `Scanner.isAtEnd`. -/
def ScanState.isAtEnd (σ : ScanState) : Bool :=
  σ.source.length ≤ σ.current

/-- `Scanner.peek`: current character without consuming (NUL at end). -/
def ScanState.peek (σ : ScanState) : Char :=
  if σ.isAtEnd then '\x00' else σ.source.getD σ.current '\x00'

/-- `Scanner.peekNext`: two-character lookahead (NUL past the end). -/
def ScanState.peekNext (σ : ScanState) : Char :=
  if σ.source.length ≤ σ.current + 1 then '\x00' else σ.source.getD (σ.current + 1) '\x00'

/-- `Scanner.advance`: consume the current character.  (The JS source only ever
calls this when at least one character remains.) -/
def ScanState.advance (σ : ScanState) : Char × ScanState :=
  (σ.source.getD σ.current '\x00', { σ with current := σ.current + 1 })

/-- `Scanner.match`: conditional single-character consume. -/
def ScanState.matchChar (σ : ScanState) (expected : Char) : Bool × ScanState :=
  if σ.isAtEnd then (false, σ)
  else if σ.source.getD σ.current '\x00' ≠ expected then (false, σ)
  else (true, { σ with current := σ.current + 1 })

/-- `Scanner.isDigit`. -/
def isDigit (c : Char) : Bool := '0' ≤ c ∧ c ≤ '9'

/-- `Scanner.isAlpha`: letters and underscore. -/
def isAlpha (c : Char) : Bool :=
  ('a' ≤ c ∧ c ≤ 'z') ∨ ('A' ≤ c ∧ c ≤ 'Z') ∨ c = '_'

/-- `Scanner.isAlphaNumeric`. -/
def isAlphaNumeric (c : Char) : Bool := isAlpha c || isDigit c

/-- The source text between `start` (inclusive) and `current` (exclusive), as
`this.source.substring(this.start, this.current)`. -/
def ScanState.lexemeText (σ : ScanState) : String :=
  String.mk ((σ.source.drop σ.start).take (σ.current - σ.start))

/-- `Scanner.addToken`: push a token for the current lexeme window. -/
def ScanState.addToken (σ : ScanState) (type : TokType) (literal : Option Lit := none) :
    ScanState :=
  { σ with tokens := σ.tokens ++ [⟨type, σ.lexemeText, literal, σ.line⟩] }

/-- Report a lexical error (`this.errorReporter(line, message)`). -/
def ScanState.reportError (σ : ScanState) (line : ℕ) (message : String) : ScanState :=
  { σ with errors := σ.errors ++ [(line, message)] }

/-- The `while` loop of `Scanner.string`: consume up to (not including) the
closing quote or the end of input, bumping `line` at newlines.  Fuel-driven;
`source.length + 1` fuel is always sufficient (each step consumes a character). -/
def stringLoop : ℕ → ScanState → ScanState
  | 0, σ => σ
  | fuel + 1, σ =>
    if σ.peek ≠ '"' ∧ ¬ σ.isAtEnd then
      let σ := if σ.peek = '\n' then { σ with line := σ.line + 1 } else σ
      stringLoop fuel σ.advance.2
    else σ

/-- The tail of `Scanner.string` after its scanning loop: either report the
unterminated string, or consume the closing quote and emit the `STRING` token
whose literal is the text between the quotes. -/
def stringFinish (σ1 : ScanState) : ScanState :=
  if σ1.isAtEnd then σ1.reportError σ1.line "Unterminated string."
  else
    (σ1.advance.2).addToken .STRING
      (some (.lstr (String.mk ((σ1.advance.2.source.drop (σ1.advance.2.start + 1)).take
        (σ1.advance.2.current - 1 - (σ1.advance.2.start + 1))))))

/-- `Scanner.string` after the opening quote has been consumed. -/
def scanString (σ : ScanState) : ScanState :=
  stringFinish (stringLoop (σ.source.length + 1) σ)

/-- The `//` line-comment loop: consume to (not including) the newline. -/
def lineCommentLoop : ℕ → ScanState → ScanState
  | 0, σ => σ
  | fuel + 1, σ =>
    if σ.peek ≠ '\n' ∧ ¬ σ.isAtEnd then lineCommentLoop fuel σ.advance.2 else σ

/-- The loop of `Scanner.blockComment`: scan to a `*/` or the end of input
(reporting "Unterminated block comment." in the latter case). -/
def blockCommentLoop : ℕ → ScanState → ScanState
  | 0, σ => σ
  | fuel + 1, σ =>
    if ¬ σ.isAtEnd then
      if σ.peek = '*' ∧ σ.peekNext = '/' then (σ.advance.2).advance.2
      else
        let σ := if σ.peek = '\n' then { σ with line := σ.line + 1 } else σ
        blockCommentLoop fuel σ.advance.2
    else σ.reportError σ.line "Unterminated block comment."

/-- The `while (this.isDigit(this.peek())) this.advance()` loops of
`Scanner.number`. -/
def digitsLoop : ℕ → ScanState → ScanState
  | 0, σ => σ
  | fuel + 1, σ =>
    if isDigit σ.peek then digitsLoop fuel σ.advance.2 else σ

/-- Digits to a natural number (the integral part of a `parseFloat`). -/
def digitsToNat (cs : List Char) : ℕ :=
  cs.foldl (fun n c => 10 * n + (c.toNat - '0'.toNat)) 0

/-- The JS `parseFloat` on a lexeme of the shape scanned by `Scanner.number`
(digits optionally followed by `.` and digits), modelled exactly over ℚ. -/
def parseNum (cs : List Char) : ℚ :=
  match cs.splitOn '.' with
  | [intPart] => (digitsToNat intPart : ℚ)
  | [intPart, fracPart] =>
      (digitsToNat intPart : ℚ) + (digitsToNat fracPart : ℚ) / ((10 : ℚ) ^ fracPart.length)
  | _ => 0

/-- The fractional-part step of `Scanner.number`: if a `.` followed by a
digit is ahead, consume the dot and the following digit run. -/
def numberFrac (σ1 : ScanState) : ScanState :=
  if σ1.peek = '.' ∧ isDigit σ1.peekNext then
    digitsLoop (σ1.source.length + 1) σ1.advance.2
  else σ1

/-- The tail of `Scanner.number`: parse the scanned lexeme and emit the
`NUMBER` token. -/
def numberFinish (σ2 : ScanState) : ScanState :=
  σ2.addToken .NUMBER
    (some (.lnum (parseNum ((σ2.source.drop σ2.start).take (σ2.current - σ2.start)))))

/-- `Scanner.number`. -/
def scanNumber (σ : ScanState) : ScanState :=
  numberFinish (numberFrac (digitsLoop (σ.source.length + 1) σ))

/-- The `while (this.isAlphaNumeric(this.peek()))` loop of `Scanner.identifier`. -/
def identLoop : ℕ → ScanState → ScanState
  | 0, σ => σ
  | fuel + 1, σ =>
    if isAlphaNumeric σ.peek then identLoop fuel σ.advance.2 else σ

/-- The tail of `Scanner.identifier`: look the lexeme up in the keyword table
(`keywords[text] || IDENTIFIER`) and emit the token. -/
def identFinish (σ1 : ScanState) : ScanState :=
  σ1.addToken ((keywords σ1.lexemeText).getD .IDENTIFIER)

/-- `Scanner.identifier`: scan the rest of the word, then finish. -/
def scanIdentifier (σ : ScanState) : ScanState :=
  identFinish (identLoop (σ.source.length + 1) σ)

/-- The `switch (c)` of `Scanner.scanToken`, over the consumed character `c`
and the post-`advance` scanner state.  (The two-character operators bind
`this.match('=')`'s boolean and the advanced state via the projections of
`matchChar`.) -/
def scanTokenDispatch (c : Char) (σ : ScanState) : ScanState :=
  match c with
  | '(' => σ.addToken .LEFT_PAREN
  | ')' => σ.addToken .RIGHT_PAREN
  | '{' => σ.addToken .LEFT_BRACE
  | '}' => σ.addToken .RIGHT_BRACE
  | ',' => σ.addToken .COMMA
  | '.' => σ.addToken .DOT
  | '-' => σ.addToken .MINUS
  | '+' => σ.addToken .PLUS
  | ';' => σ.addToken .SEMICOLON
  | '*' => σ.addToken .STAR
  | '?' => σ.addToken .QUESTION
  | ':' => σ.addToken .COLON
  | '!' =>
    (σ.matchChar '=').2.addToken (if (σ.matchChar '=').1 then .BANG_EQUAL else .BANG)
  | '=' =>
    (σ.matchChar '=').2.addToken (if (σ.matchChar '=').1 then .EQUAL_EQUAL else .EQUAL)
  | '<' =>
    (σ.matchChar '=').2.addToken (if (σ.matchChar '=').1 then .LESS_EQUAL else .LESS)
  | '>' =>
    (σ.matchChar '=').2.addToken (if (σ.matchChar '=').1 then .GREATER_EQUAL else .GREATER)
  | '/' =>
    if (σ.matchChar '/').1 then lineCommentLoop (σ.source.length + 1) (σ.matchChar '/').2
    else if ((σ.matchChar '/').2.matchChar '*').1 then
      blockCommentLoop (σ.source.length + 1) ((σ.matchChar '/').2.matchChar '*').2
    else (σ.matchChar '/').2.addToken .SLASH
  | ' ' => σ
  | '\r' => σ
  | '\t' => σ
  | '\n' => { σ with line := σ.line + 1 }
  | '"' => scanString σ
  | c =>
    if isDigit c then scanNumber σ
    else if isAlpha c then scanIdentifier σ
    else σ.reportError σ.line "Unexpected character."

/-- `Scanner.scanToken`: consume one character (`advance`) and dispatch. -/
def scanToken (σ0 : ScanState) : ScanState :=
  scanTokenDispatch σ0.advance.1 σ0.advance.2

/-- The loop of `Scanner.scanTokens`: while not at the end, set
`start ← current` and scan one token.  Fuel-driven; `source.length + 1` fuel is
proved sufficient below. -/
def scanLoop : ℕ → ScanState → ScanState
  | 0, σ => σ
  | fuel + 1, σ =>
    if σ.isAtEnd then σ
    else scanLoop fuel (scanToken { σ with start := σ.current })

/-- The scanner's initial state on a source string. -/
def initScan (source : String) : ScanState :=
  ⟨source.data, [], [], 0, 0, 1⟩

/-- The scanner state after the main loop has finished. -/
def scanFinal (source : String) : ScanState :=
  scanLoop (source.data.length + 1) (initScan source)

/-- `Scanner.scanTokens`: run the loop, then append the final EOF token with
empty lexeme and the final line number. -/
def scanTokens (source : String) : List Token :=
  (scanFinal source).tokens ++ [⟨.EOF, "", none, (scanFinal source).line⟩]

/-! ## The AST (`src/src/Expr.js`, `src/src/Stmt.js`, current versions) -/

/-- Expression nodes, one constructor per class of `src/src/Expr.js`. -/
inductive Expr where
  | literal (v : Lit)
  | grouping (e : Expr)
  | unary (op : Token) (right : Expr)
  | binary (left : Expr) (op : Token) (right : Expr)
  | ternary (c thenB elseB : Expr)
  | variable (name : Token)
  | assign (name : Token) (value : Expr)
  | call (callee : Expr) (paren : Token) (args : List Expr)
deriving Repr

/-- Statement nodes, one constructor per class of `src/src/Stmt.js`. -/
inductive Stmt where
  | sExpression (e : Expr)
  | sPrint (e : Expr)
  | sVar (name : Token) (init : Option Expr)
  | sBlock (stmts : List Stmt)
  | sIf (c : Expr) (thenB : Stmt) (elseB : Option Stmt)
  | sWhile (c : Expr) (body : Stmt)
  | sBreak
  | sFunction (name : Token) (params : List Token) (body : List Stmt)
  | sReturn (keyword : Token) (value : Option Expr)
deriving Repr

/-! ## The parser (`src/src/Parser.js`)

The parser's mutable fields are `tokens`, `current`, `loopDepth` and the
accumulated reported errors; a thrown `ParseError` is modelled by the `perr`
result.  All parsing functions are fuel-driven (the concrete claims only ever
run them on concrete token lists). -/

/-- The parser's state. -/
structure PState where
  tokens : List Token
  current : ℕ
  loopDepth : ℕ
  errors : List (Token × String)
deriving Repr

/-- A parse step result: success, a thrown `ParseError` (already reported), or
fuel exhaustion. -/
inductive POut (α : Type) where
  | ok (a : α) (σ : PState)
  | perr (σ : PState)
  | nofuel
deriving Repr

/-- A fallback token (never reached: the token list ends with EOF and every
loop stops there). -/
def dummyToken : Token := ⟨.EOF, "", none, 0⟩

/-- `Parser.peek`. -/
def PState.peek (σ : PState) : Token := σ.tokens.getD σ.current dummyToken

/-- `Parser.previous`. -/
def PState.previous (σ : PState) : Token := σ.tokens.getD (σ.current - 1) dummyToken

/-- `Parser.isAtEnd`. -/
def PState.isAtEnd (σ : PState) : Bool := σ.peek.type = .EOF

/-- `Parser.check`. -/
def PState.check (σ : PState) (t : TokType) : Bool :=
  if σ.isAtEnd then false else σ.peek.type = t

/-- `Parser.advance`: consume (unless at EOF) and return the consumed token. -/
def PState.advance (σ : PState) : Token × PState :=
  let σ1 := if σ.isAtEnd then σ else { σ with current := σ.current + 1 }
  (σ1.previous, σ1)

/-- `Parser.match(...types)`. -/
def PState.matchT (σ : PState) (types : List TokType) : Bool × PState :=
  if types.any (fun t => σ.check t) then (true, σ.advance.2) else (false, σ)

/-- `Parser.error`: report to the error sink and produce the thrown
`ParseError` sentinel. -/
def PState.reportError (σ : PState) (tok : Token) (message : String) : PState :=
  { σ with errors := σ.errors ++ [(tok, message)] }

/-- `Parser.consume`. -/
def PState.consume (σ : PState) (t : TokType) (message : String) : POut Token :=
  if σ.check t then let (tok, σ1) := σ.advance; .ok tok σ1
  else .perr (σ.reportError σ.peek message)

/-- The loop of `Parser.synchronize`, after its initial `advance`. -/
def syncLoop : ℕ → PState → PState
  | 0, σ => σ
  | fuel + 1, σ =>
    if σ.isAtEnd then σ
    else if σ.previous.type = .SEMICOLON then σ
    else
      match σ.peek.type with
      | .CLASS | .FUN | .VAR | .FOR | .IF | .WHILE | .PRINT | .RETURN => σ
      | _ => syncLoop fuel σ.advance.2

/-- `Parser.synchronize`. -/
def PState.synchronize (σ : PState) : PState :=
  syncLoop (σ.tokens.length + 1) σ.advance.2

mutual

/-- `Parser.declaration`: `var` declaration or statement, catching a
`ParseError` by synchronizing and yielding `null`. -/
def parseDeclaration : ℕ → PState → POut (Option Stmt)
  | 0, _ => .nofuel
  | fuel + 1, σ =>
    let (m, σ1) := σ.matchT [.VAR]
    let res := if m then parseVarDeclaration fuel σ1 else parseStatement fuel σ1
    match res with
    | .ok s σ2 => .ok (some s) σ2
    | .perr σ2 => .ok none σ2.synchronize
    | .nofuel => .nofuel

/-- `Parser.statement`. -/
def parseStatement : ℕ → PState → POut Stmt
  | 0, _ => .nofuel
  | fuel + 1, σ =>
    let (m, σ1) := σ.matchT [.BREAK]
    if m then parseBreakStatement fuel σ1
    else
      let (m, σ1) := σ.matchT [.FOR]
      if m then parseForStatement fuel σ1
      else
        let (m, σ1) := σ.matchT [.IF]
        if m then parseIfStatement fuel σ1
        else
          let (m, σ1) := σ.matchT [.PRINT]
          if m then parsePrintStatement fuel σ1
          else
            let (m, σ1) := σ.matchT [.WHILE]
            if m then parseWhileStatement fuel σ1
            else
              let (m, σ1) := σ.matchT [.LEFT_BRACE]
              if m then
                match parseBlock fuel σ1 with
                | .ok stmts σ2 => .ok (.sBlock stmts) σ2
                | .perr σ2 => .perr σ2
                | .nofuel => .nofuel
              else parseExpressionStatement fuel σ1

/-- `Parser.breakStatement`: report (without throwing) a `break` outside any
loop, then consume the `;`. -/
def parseBreakStatement : ℕ → PState → POut Stmt
  | 0, _ => .nofuel
  | _ + 1, σ =>
    let σ1 := if σ.loopDepth = 0 then σ.reportError σ.previous "Must be inside a loop to use 'break'." else σ
    match σ1.consume .SEMICOLON "Expect ';' after 'break'." with
    | .ok _ σ2 => .ok .sBreak σ2
    | .perr σ2 => .perr σ2
    | .nofuel => .nofuel

/-- `Parser.ifStatement`. -/
def parseIfStatement : ℕ → PState → POut Stmt
  | 0, _ => .nofuel
  | fuel + 1, σ =>
    match σ.consume .LEFT_PAREN "Expect '(' after 'if'." with
    | .perr σ1 => .perr σ1
    | .nofuel => .nofuel
    | .ok _ σ1 =>
      match parseExpression fuel σ1 with
      | .perr σ2 => .perr σ2
      | .nofuel => .nofuel
      | .ok condition σ2 =>
        match σ2.consume .RIGHT_PAREN "Expect ')' after if condition." with
        | .perr σ3 => .perr σ3
        | .nofuel => .nofuel
        | .ok _ σ3 =>
          match parseStatement fuel σ3 with
          | .perr σ4 => .perr σ4
          | .nofuel => .nofuel
          | .ok thenBranch σ4 =>
            let (m, σ5) := σ4.matchT [.ELSE]
            if m then
              match parseStatement fuel σ5 with
              | .perr σ6 => .perr σ6
              | .nofuel => .nofuel
              | .ok elseBranch σ6 => .ok (.sIf condition thenBranch (some elseBranch)) σ6
            else .ok (.sIf condition thenBranch none) σ5

/-- `Parser.forStatement` (desugars to `While` inside blocks; mirrors the
source including the `loopDepth` bookkeeping). -/
def parseForStatement : ℕ → PState → POut Stmt
  | 0, _ => .nofuel
  | fuel + 1, σ =>
    let σ := { σ with loopDepth := σ.loopDepth + 1 }
    match σ.consume .LEFT_PAREN "Expect '(' after 'for'." with
    | .perr σ1 => .perr σ1
    | .nofuel => .nofuel
    | .ok _ σ1 =>
      let initRes : POut (Option Stmt) :=
        let (m, σ2) := σ1.matchT [.SEMICOLON]
        if m then .ok none σ2
        else
          let (m, σ2) := σ1.matchT [.VAR]
          if m then
            match parseVarDeclaration fuel σ2 with
            | .ok s σ3 => .ok (some s) σ3
            | .perr σ3 => .perr σ3
            | .nofuel => .nofuel
          else
            match parseExpressionStatement fuel σ2 with
            | .ok s σ3 => .ok (some s) σ3
            | .perr σ3 => .perr σ3
            | .nofuel => .nofuel
      match initRes with
      | .perr σ2 => .perr σ2
      | .nofuel => .nofuel
      | .ok initializer σ2 =>
        let condRes : POut (Option Expr) :=
          if ¬ σ2.check .SEMICOLON then
            match parseExpression fuel σ2 with
            | .ok e σ3 => .ok (some e) σ3
            | .perr σ3 => .perr σ3
            | .nofuel => .nofuel
          else .ok none σ2
        match condRes with
        | .perr σ3 => .perr σ3
        | .nofuel => .nofuel
        | .ok condition σ3 =>
          match σ3.consume .SEMICOLON "Expect ';' after loop condition." with
          | .perr σ4 => .perr σ4
          | .nofuel => .nofuel
          | .ok _ σ4 =>
            let incRes : POut (Option Expr) :=
              if ¬ σ4.check .RIGHT_PAREN then
                match parseExpression fuel σ4 with
                | .ok e σ5 => .ok (some e) σ5
                | .perr σ5 => .perr σ5
                | .nofuel => .nofuel
              else .ok none σ4
            match incRes with
            | .perr σ5 => .perr σ5
            | .nofuel => .nofuel
            | .ok increment σ5 =>
              match σ5.consume .RIGHT_PAREN "Expect ')' after for clauses." with
              | .perr σ6 => .perr σ6
              | .nofuel => .nofuel
              | .ok _ σ6 =>
                match parseStatement fuel σ6 with
                | .perr σ7 => .perr σ7
                | .nofuel => .nofuel
                | .ok body σ7 =>
                  let body := match increment with
                    | some inc => Stmt.sBlock [body, .sExpression inc]
                    | none => body
                  let condition := condition.getD (.literal (.lbool true))
                  let body := Stmt.sWhile condition body
                  let body := match initializer with
                    | some ini => Stmt.sBlock [ini, body]
                    | none => body
                  .ok body { σ7 with loopDepth := σ7.loopDepth - 1 }

/-- `Parser.whileStatement`. -/
def parseWhileStatement : ℕ → PState → POut Stmt
  | 0, _ => .nofuel
  | fuel + 1, σ =>
    let σ := { σ with loopDepth := σ.loopDepth + 1 }
    match σ.consume .LEFT_PAREN "Expect '(' after 'while'." with
    | .perr σ1 => .perr σ1
    | .nofuel => .nofuel
    | .ok _ σ1 =>
      match parseExpression fuel σ1 with
      | .perr σ2 => .perr σ2
      | .nofuel => .nofuel
      | .ok condition σ2 =>
        match σ2.consume .RIGHT_PAREN "Expect ')' after condition." with
        | .perr σ3 => .perr σ3
        | .nofuel => .nofuel
        | .ok _ σ3 =>
          match parseStatement fuel σ3 with
          | .perr σ4 => .perr σ4
          | .nofuel => .nofuel
          | .ok body σ4 =>
            .ok (.sWhile condition body) { σ4 with loopDepth := σ4.loopDepth - 1 }

/-- The loop of `Parser.block` plus the closing-brace consume. -/
def parseBlock : ℕ → PState → POut (List Stmt)
  | 0, _ => .nofuel
  | fuel + 1, σ =>
    if ¬ σ.check .RIGHT_BRACE ∧ ¬ σ.isAtEnd then
      match parseDeclaration fuel σ with
      | .perr σ1 => .perr σ1
      | .nofuel => .nofuel
      | .ok d σ1 =>
        match parseBlock fuel σ1 with
        | .perr σ2 => .perr σ2
        | .nofuel => .nofuel
        | .ok rest σ2 =>
          -- `block()` pushes the result of `declaration()` unconditionally;
          -- a recovered-to-null declaration is pushed as null and later
          -- crashes the interpreter, but no claim exercises that path, and
          -- `parse()` itself filters nulls.  We keep the non-null ones.
          match d with
          | some s => .ok (s :: rest) σ2
          | none => .ok rest σ2
    else
      match σ.consume .RIGHT_BRACE "Expect '\x7d' after block." with
      | .ok _ σ1 => .ok [] σ1
      | .perr σ1 => .perr σ1
      | .nofuel => .nofuel

/-- `Parser.varDeclaration`. -/
def parseVarDeclaration : ℕ → PState → POut Stmt
  | 0, _ => .nofuel
  | fuel + 1, σ =>
    match σ.consume .IDENTIFIER "Expect variable name." with
    | .perr σ1 => .perr σ1
    | .nofuel => .nofuel
    | .ok name σ1 =>
      let initRes : POut (Option Expr) :=
        let (m, σ2) := σ1.matchT [.EQUAL]
        if m then
          match parseExpression fuel σ2 with
          | .ok e σ3 => .ok (some e) σ3
          | .perr σ3 => .perr σ3
          | .nofuel => .nofuel
        else .ok none σ2
      match initRes with
      | .perr σ2 => .perr σ2
      | .nofuel => .nofuel
      | .ok initializer σ2 =>
        match σ2.consume .SEMICOLON "Expect ';' after variable declaration." with
        | .perr σ3 => .perr σ3
        | .nofuel => .nofuel
        | .ok _ σ3 => .ok (.sVar name initializer) σ3

/-- `Parser.printStatement`. -/
def parsePrintStatement : ℕ → PState → POut Stmt
  | 0, _ => .nofuel
  | fuel + 1, σ =>
    match parseExpression fuel σ with
    | .perr σ1 => .perr σ1
    | .nofuel => .nofuel
    | .ok value σ1 =>
      match σ1.consume .SEMICOLON "Expect ';' after value." with
      | .perr σ2 => .perr σ2
      | .nofuel => .nofuel
      | .ok _ σ2 => .ok (.sPrint value) σ2

/-- `Parser.expressionStatement`. -/
def parseExpressionStatement : ℕ → PState → POut Stmt
  | 0, _ => .nofuel
  | fuel + 1, σ =>
    match parseExpression fuel σ with
    | .perr σ1 => .perr σ1
    | .nofuel => .nofuel
    | .ok e σ1 =>
      match σ1.consume .SEMICOLON "Expect ';' after expression." with
      | .perr σ2 => .perr σ2
      | .nofuel => .nofuel
      | .ok _ σ2 => .ok (.sExpression e) σ2

/-- `Parser.expression`. -/
def parseExpression : ℕ → PState → POut Expr
  | 0, _ => .nofuel
  | fuel + 1, σ => parseAssignment fuel σ

/-- `Parser.assignment`. -/
def parseAssignment : ℕ → PState → POut Expr
  | 0, _ => .nofuel
  | fuel + 1, σ =>
    match parseComma fuel σ with
    | .perr σ1 => .perr σ1
    | .nofuel => .nofuel
    | .ok expr σ1 =>
      let (m, σ2) := σ1.matchT [.EQUAL]
      if m then
        let equals := σ2.previous
        match parseAssignment fuel σ2 with
        | .perr σ3 => .perr σ3
        | .nofuel => .nofuel
        | .ok value σ3 =>
          match expr with
          | .variable name => .ok (.assign name value) σ3
          | _ => .perr (σ3.reportError equals "Invalid assignment target.")
      else .ok expr σ2

/-- The `while (this.match(COMMA))` loop of `Parser.comma`. -/
def parseCommaLoop : ℕ → Expr → PState → POut Expr
  | 0, _, _ => .nofuel
  | fuel + 1, expr, σ =>
    let (m, σ1) := σ.matchT [.COMMA]
    if m then
      let operator := σ1.previous
      match parseTernary fuel σ1 with
      | .perr σ2 => .perr σ2
      | .nofuel => .nofuel
      | .ok right σ2 => parseCommaLoop fuel (.binary expr operator right) σ2
    else .ok expr σ1

/-- `Parser.comma`. -/
def parseComma : ℕ → PState → POut Expr
  | 0, _ => .nofuel
  | fuel + 1, σ =>
    match parseTernary fuel σ with
    | .perr σ1 => .perr σ1
    | .nofuel => .nofuel
    | .ok expr σ1 => parseCommaLoop fuel expr σ1

/-- `Parser.ternary`. -/
def parseTernary : ℕ → PState → POut Expr
  | 0, _ => .nofuel
  | fuel + 1, σ =>
    match parseEquality fuel σ with
    | .perr σ1 => .perr σ1
    | .nofuel => .nofuel
    | .ok expr σ1 =>
      let (m, σ2) := σ1.matchT [.QUESTION]
      if m then
        match parseExpression fuel σ2 with
        | .perr σ3 => .perr σ3
        | .nofuel => .nofuel
        | .ok thenBranch σ3 =>
          match σ3.consume .COLON "Expect ':' after then branch of conditional expression." with
          | .perr σ4 => .perr σ4
          | .nofuel => .nofuel
          | .ok _ σ4 =>
            match parseTernary fuel σ4 with
            | .perr σ5 => .perr σ5
            | .nofuel => .nofuel
            | .ok elseBranch σ5 => .ok (.ternary expr thenBranch elseBranch) σ5
      else .ok expr σ2

/-- The `while` loop of `Parser.equality`. -/
def parseEqualityLoop : ℕ → Expr → PState → POut Expr
  | 0, _, _ => .nofuel
  | fuel + 1, expr, σ =>
    let (m, σ1) := σ.matchT [.BANG_EQUAL, .EQUAL_EQUAL]
    if m then
      let operator := σ1.previous
      match parseComparison fuel σ1 with
      | .perr σ2 => .perr σ2
      | .nofuel => .nofuel
      | .ok right σ2 => parseEqualityLoop fuel (.binary expr operator right) σ2
    else .ok expr σ1

/-- The `while` loop of `Parser.comparison`. -/
def parseComparisonLoop : ℕ → Expr → PState → POut Expr
  | 0, _, _ => .nofuel
  | fuel + 1, expr, σ =>
    let (m, σ1) := σ.matchT [.GREATER, .GREATER_EQUAL, .LESS, .LESS_EQUAL]
    if m then
      let operator := σ1.previous
      match parseTerm fuel σ1 with
      | .perr σ2 => .perr σ2
      | .nofuel => .nofuel
      | .ok right σ2 => parseComparisonLoop fuel (.binary expr operator right) σ2
    else .ok expr σ1

/-- The `while` loop of `Parser.term`. -/
def parseTermLoop : ℕ → Expr → PState → POut Expr
  | 0, _, _ => .nofuel
  | fuel + 1, expr, σ =>
    let (m, σ1) := σ.matchT [.MINUS, .PLUS]
    if m then
      let operator := σ1.previous
      match parseFactor fuel σ1 with
      | .perr σ2 => .perr σ2
      | .nofuel => .nofuel
      | .ok right σ2 => parseTermLoop fuel (.binary expr operator right) σ2
    else .ok expr σ1

/-- The `while` loop of `Parser.factor`. -/
def parseFactorLoop : ℕ → Expr → PState → POut Expr
  | 0, _, _ => .nofuel
  | fuel + 1, expr, σ =>
    let (m, σ1) := σ.matchT [.SLASH, .STAR]
    if m then
      let operator := σ1.previous
      match parseUnary fuel σ1 with
      | .perr σ2 => .perr σ2
      | .nofuel => .nofuel
      | .ok right σ2 => parseFactorLoop fuel (.binary expr operator right) σ2
    else .ok expr σ1

/-- `Parser.equality`, with the leading-operator diagnostic. -/
def parseEquality : ℕ → PState → POut Expr
  | 0, _ => .nofuel
  | fuel + 1, σ =>
    let (m, σ1) := σ.matchT [.BANG_EQUAL, .EQUAL_EQUAL]
    if m then
      let σ2 := σ1.reportError σ1.previous "Missing left-hand operand."
      match parseComparison fuel σ2 with
      | .perr σ3 => .perr σ3
      | .nofuel => .nofuel
      | .ok _ σ3 => .ok (.literal .lnil) σ3
    else
      match parseComparison fuel σ1 with
      | .perr σ2 => .perr σ2
      | .nofuel => .nofuel
      | .ok expr σ2 => parseEqualityLoop fuel expr σ2

/-- `Parser.comparison`, with the leading-operator diagnostic. -/
def parseComparison : ℕ → PState → POut Expr
  | 0, _ => .nofuel
  | fuel + 1, σ =>
    let (m, σ1) := σ.matchT [.GREATER, .GREATER_EQUAL, .LESS, .LESS_EQUAL]
    if m then
      let σ2 := σ1.reportError σ1.previous "Missing left-hand operand."
      match parseTerm fuel σ2 with
      | .perr σ3 => .perr σ3
      | .nofuel => .nofuel
      | .ok _ σ3 => .ok (.literal .lnil) σ3
    else
      match parseTerm fuel σ1 with
      | .perr σ2 => .perr σ2
      | .nofuel => .nofuel
      | .ok expr σ2 =>
        parseComparisonLoop fuel expr σ2

/-- `Parser.term` (note: the leading-operator diagnostic fires on `+` only;
a leading `-` is a valid unary). -/
def parseTerm : ℕ → PState → POut Expr
  | 0, _ => .nofuel
  | fuel + 1, σ =>
    let (m, σ1) := σ.matchT [.PLUS]
    if m then
      let σ2 := σ1.reportError σ1.previous "Missing left-hand operand."
      match parseFactor fuel σ2 with
      | .perr σ3 => .perr σ3
      | .nofuel => .nofuel
      | .ok _ σ3 => .ok (.literal .lnil) σ3
    else
      match parseFactor fuel σ1 with
      | .perr σ2 => .perr σ2
      | .nofuel => .nofuel
      | .ok expr σ2 => parseTermLoop fuel expr σ2

/-- `Parser.factor`, with the leading-operator diagnostic. -/
def parseFactor : ℕ → PState → POut Expr
  | 0, _ => .nofuel
  | fuel + 1, σ =>
    let (m, σ1) := σ.matchT [.SLASH, .STAR]
    if m then
      let σ2 := σ1.reportError σ1.previous "Missing left-hand operand."
      match parseUnary fuel σ2 with
      | .perr σ3 => .perr σ3
      | .nofuel => .nofuel
      | .ok _ σ3 => .ok (.literal .lnil) σ3
    else
      match parseUnary fuel σ1 with
      | .perr σ2 => .perr σ2
      | .nofuel => .nofuel
      | .ok expr σ2 => parseFactorLoop fuel expr σ2

/-- `Parser.unary`. -/
def parseUnary : ℕ → PState → POut Expr
  | 0, _ => .nofuel
  | fuel + 1, σ =>
    let (m, σ1) := σ.matchT [.BANG, .MINUS]
    if m then
      let operator := σ1.previous
      match parseUnary fuel σ1 with
      | .perr σ2 => .perr σ2
      | .nofuel => .nofuel
      | .ok right σ2 => .ok (.unary operator right) σ2
    else parsePrimary fuel σ1

/-- `Parser.primary`.  Note that the current parser derives neither calls nor
`fun`/`return`: a `FUN` or `RETURN` token in expression position falls through
to `throw this.error(this.peek(), "Expect expression.")`. -/
def parsePrimary : ℕ → PState → POut Expr
  | 0, _ => .nofuel
  | fuel + 1, σ =>
    let (m, σ1) := σ.matchT [.FALSE]
    if m then .ok (.literal (.lbool false)) σ1
    else
      let (m, σ1) := σ.matchT [.TRUE]
      if m then .ok (.literal (.lbool true)) σ1
      else
        let (m, σ1) := σ.matchT [.NIL]
        if m then .ok (.literal .lnil) σ1
        else
          let (m, σ1) := σ.matchT [.NUMBER, .STRING]
          if m then .ok (.literal (σ1.previous.literal.getD .lnil)) σ1
          else
            let (m, σ1) := σ.matchT [.IDENTIFIER]
            if m then .ok (.variable σ1.previous) σ1
            else
              let (m, σ1) := σ.matchT [.LEFT_PAREN]
              if m then
                match parseExpression fuel σ1 with
                | .perr σ2 => .perr σ2
                | .nofuel => .nofuel
                | .ok e σ2 =>
                  match σ2.consume .RIGHT_PAREN "Expect ')' after expression." with
                  | .perr σ3 => .perr σ3
                  | .nofuel => .nofuel
                  | .ok _ σ3 => .ok (.grouping e) σ3
              else .perr (σ1.reportError σ1.peek "Expect expression.")

end

/-- The loop of `Parser.parse`: collect the non-null declarations. -/
def parseLoop : ℕ → PState → Option (List Stmt × PState)
  | 0, _ => none
  | fuel + 1, σ =>
    if σ.isAtEnd then some ([], σ)
    else
      match parseDeclaration fuel σ with
      | .nofuel => none
      | .perr σ1 => parseLoop fuel σ1   -- unreachable: declaration() never throws
      | .ok d σ1 =>
        match parseLoop fuel σ1 with
        | none => none
        | some (rest, σ2) =>
          match d with
          | some s => some (s :: rest, σ2)
          | none => some (rest, σ2)

/-- `Parser.parse` on a token list (fresh parser state). -/
def parseProgram (fuel : ℕ) (tokens : List Token) : Option (List Stmt × PState) :=
  parseLoop fuel ⟨tokens, 0, 0, []⟩

/-! ## Runtime values and environments
(`src/src/Interpreter.js`, `src/src/Environment.js`, `src/src/Function.js`,
`src/src/Callable.js`) -/

/-- What a callable value carries: the single native `clock`, or a user
function (`Function.js`) with its declaration and the id of its captured
environment (the closure). -/
inductive CallableData where
  | native
  | closure (name : Token) (params : List Token) (body : List Stmt) (env : ℕ)
deriving Repr

/-- The runtime value domain.  JS object reference identity for callables is
modelled by the allocation id `id` (fresh per constructed function value). -/
inductive Value where
  | vnil
  | vbool (b : Bool)
  | vnum (q : ℚ)
  | vstr (s : String)
  | vcallable (id : ℕ) (data : CallableData)
deriving Repr

/-- The kind of a runtime value (the `typeof`/instance discrimination the
interpreter performs). -/
inductive VKind where
  | nilK | boolK | numK | strK | callK
deriving DecidableEq, Repr

/-- The kind tag of a value. -/
def Value.kind : Value → VKind
  | .vnil => .nilK
  | .vbool _ => .boolK
  | .vnum _ => .numK
  | .vstr _ => .strK
  | .vcallable _ _ => .callK

/-- `RuntimeError` (`src/src/RuntimeError.js`): offending token and message. -/
structure RErr where
  token : Token
  message : String
deriving Repr

/-- One environment (`Environment.js`, current version): the link to the
enclosing environment and the name→value bindings (a JS `Map`, modelled as an
association list with replace-or-append insertion). -/
structure Frame where
  parent : Option ℕ
  vars : List (String × Value)
deriving Repr

/-- The interpreter's state: the arena of all environments created so far
(JS objects, referenced by index; frame 0 is the globals), the current
environment, the allocation counter for callable identity, everything printed
so far, and the value the `clock` native would return (the external clock is
out of the spec's scope). -/
structure IState where
  frames : List Frame
  cur : ℕ
  nextId : ℕ
  output : List String
  now : ℚ
deriving Repr

/-- A frame of the arena (out-of-range indices yield an inert empty frame;
never reached from well-formed states). -/
def IState.frame (σ : IState) (i : ℕ) : Frame := σ.frames.getD i ⟨none, []⟩

/-- JS `Map.prototype.set`: replace the binding if the key is present,
otherwise append it. -/
def setVar (l : List (String × Value)) (k : String) (v : Value) : List (String × Value) :=
  match l with
  | [] => [(k, v)]
  | (k1, v1) :: rest => if k1 = k then (k, v) :: rest else (k1, v1) :: setVar rest k v

/-- `Environment.define`: unconditionally bind in this scope. -/
def IState.define (σ : IState) (name : String) (v : Value) : IState :=
  { σ with frames := σ.frames.set σ.cur ⟨(σ.frame σ.cur).parent, setVar (σ.frame σ.cur).vars name v⟩ }

/-- The environment-chain walk shared by `Environment.get` and
`Environment.assign`: the first environment, from `i` outward, that has a
binding for `name`.  Fuel-driven; in well-formed states every parent link
points to an earlier frame, so `i + 1` fuel suffices. -/
def resolveAux (σ : IState) : ℕ → ℕ → String → Option ℕ
  | 0, _, _ => none
  | fuel + 1, i, name =>
    if (List.lookup name (σ.frame i).vars).isSome then some i
    else
      match (σ.frame i).parent with
      | some p => resolveAux σ fuel p name
      | none => none

/-- The frame where `name` resolves, searching from frame `i` outward. -/
def IState.resolve (σ : IState) (i : ℕ) (name : String) : Option ℕ :=
  resolveAux σ (i + 1) i name

/-- `Environment.get` from the current environment. -/
def IState.getVar (σ : IState) (name : Token) : Except RErr Value :=
  match σ.resolve σ.cur name.lexeme with
  | some i => .ok ((List.lookup name.lexeme (σ.frame i).vars).getD .vnil)
  | none => .error ⟨name, "Undefined variable '" ++ name.lexeme ++ "'."⟩

/-- `Environment.assign` from the current environment. -/
def IState.assignVar (σ : IState) (name : Token) (v : Value) : Except RErr IState :=
  match σ.resolve σ.cur name.lexeme with
  | some i =>
      .ok { σ with frames := σ.frames.set i ⟨(σ.frame i).parent, setVar (σ.frame i).vars name.lexeme v⟩ }
  | none => .error ⟨name, "Undefined variable '" ++ name.lexeme ++ "'."⟩

/-- The interpreter's initial state (`Interpreter` constructor): the global
environment with the native `clock` defined, current = globals. -/
def initState (now : ℚ) : IState :=
  ⟨[⟨none, [("clock", .vcallable 0 .native)]⟩], 0, 1, [], now⟩

/-! ## Expression helpers (`Interpreter.js`) -/

/-- `Interpreter.isTruthy`: `null` and `false` are falsey, all else truthy. -/
def isTruthy : Value → Bool
  | .vnil => false
  | .vbool b => b
  | _ => true

/-- JS strict equality `a === b` on runtime values: primitives structurally,
objects (callables) by reference identity (the allocation id); values of
different kinds are never strictly equal. -/
def strictEq : Value → Value → Bool
  | .vnum a, .vnum b => a = b
  | .vstr a, .vstr b => a = b
  | .vbool a, .vbool b => a = b
  | .vcallable i _, .vcallable j _ => i = j
  | _, _ => false

/-- `Interpreter.isEqual`. -/
def isEqual (a b : Value) : Bool :=
  match a with
  | .vnil => match b with
    | .vnil => true
    | _ => false
  | _ => strictEq a b

/-- JS `String(number)` for a double, restricted to the values this
development exercises: an integral value prints as its integer digits (never
with a fractional part — also enforced by the `.0`-stripping in
`Interpreter.stringify`); a non-integral value is rendered from its reduced
numerator and denominator (no proved property depends on that case). -/
def numToString (q : ℚ) : String :=
  if q.den = 1 then toString q.num
  else toString q.num ++ "/" ++ toString q.den

/-- `Interpreter.stringify`: `null` → `"nil"`, numbers via `String(object)`
with a `.0` suffix stripped, booleans/strings via `String(object)`, callables
via their `toString` (`"<fn NAME>"` for user functions, `"<native fn>"`). -/
def stringify : Value → String
  | .vnil => "nil"
  | .vnum q => numToString q
  | .vbool b => if b then "true" else "false"
  | .vstr s => s
  | .vcallable _ .native => "<native fn>"
  | .vcallable _ (.closure name _ _ _) => "<fn " ++ name.lexeme ++ ">"

/-- Is the value a number (`typeof x === 'number'`)? -/
def Value.isNum : Value → Bool
  | .vnum _ => true
  | _ => false

/-- Is the value a string (`typeof x === 'string'`)? -/
def Value.isStr : Value → Bool
  | .vstr _ => true
  | _ => false

/-- The operator switch of `Interpreter.visitBinaryExpr`, applied to the two
already-evaluated operands.  Faithful to the source: the switch has cases for
the arithmetic, comparison and equality operators only — any other operator
(in particular `COMMA`) falls through to the final `return null`. -/
def binaryOp (op : Token) (left right : Value) : Except RErr Value :=
  match op.type with
  | .MINUS =>
    match left, right with
    | .vnum a, .vnum b => .ok (.vnum (a - b))
    | _, _ => .error ⟨op, "Operands must be numbers."⟩
  | .SLASH =>
    match left, right with
    | .vnum a, .vnum b =>
      if b = 0 then .error ⟨op, "Division by zero."⟩
      else .ok (.vnum (a / b))
    | _, _ => .error ⟨op, "Operands must be numbers."⟩
  | .STAR =>
    match left, right with
    | .vnum a, .vnum b => .ok (.vnum (a * b))
    | _, _ => .error ⟨op, "Operands must be numbers."⟩
  | .PLUS =>
    match left, right with
    | .vnum a, .vnum b => .ok (.vnum (a + b))
    | _, _ =>
      if left.isStr || right.isStr then .ok (.vstr (stringify left ++ stringify right))
      else .error ⟨op, "Operands must be two numbers or two strings."⟩
  | .GREATER =>
    match left, right with
    | .vnum a, .vnum b => .ok (.vbool (b < a))
    | _, _ => .error ⟨op, "Operands must be numbers."⟩
  | .GREATER_EQUAL =>
    match left, right with
    | .vnum a, .vnum b => .ok (.vbool (b ≤ a))
    | _, _ => .error ⟨op, "Operands must be numbers."⟩
  | .LESS =>
    match left, right with
    | .vnum a, .vnum b => .ok (.vbool (a < b))
    | _, _ => .error ⟨op, "Operands must be numbers."⟩
  | .LESS_EQUAL =>
    match left, right with
    | .vnum a, .vnum b => .ok (.vbool (a ≤ b))
    | _, _ => .error ⟨op, "Operands must be numbers."⟩
  | .BANG_EQUAL => .ok (.vbool (! isEqual left right))
  | .EQUAL_EQUAL => .ok (.vbool (isEqual left right))
  | _ => .ok .vnil

/-- The operator switch of `Interpreter.visitUnaryExpr`. -/
def unaryOp (op : Token) (right : Value) : Except RErr Value :=
  match op.type with
  | .MINUS =>
    match right with
    | .vnum a => .ok (.vnum (-a))
    | _ => .error ⟨op, "Operand must be a number."⟩
  | .BANG => .ok (.vbool (! isTruthy right))
  | _ => .ok .vnil

/-- The value of a parser `Literal` payload (`visitLiteralExpr`). -/
def litValue : Lit → Value
  | .lnil => .vnil
  | .lbool b => .vbool b
  | .lnum q => .vnum q
  | .lstr s => .vstr s

/-! ## The tree walker

The mutually recursive evaluator (`evaluate` / `execute` / `executeBlock` /
`Function.call` / argument evaluation) is embedded as one fuel-indexed
function `run1` over a task sum type, so that it is structurally recursive on
the fuel and computes by definitional reduction.  Named wrappers mirror the
source entry points. -/

/-- Outcome of evaluating an expression: a value, a thrown `RuntimeError`, or
a `BreakInterrupt` unwinding through the evaluation (only a call can produce
the latter: `Function.call` catches `Return` but rethrows everything else). -/
inductive EvalOut where
  | val (v : Value)
  | rerr (e : RErr)
  | brk
deriving Repr

/-- Outcome of executing a statement: normal completion, a thrown
`RuntimeError`, a `BreakInterrupt`, or a `Return` transfer with its value. -/
inductive ExecOut where
  | normal
  | rerr (e : RErr)
  | brk
  | ret (v : Value)
deriving Repr

/-- Outcome of evaluating an argument list left-to-right. -/
inductive ArgsOut where
  | vals (vs : List Value)
  | rerr (e : RErr)
  | brk
deriving Repr

/-- A unit of work for the tree walker. -/
inductive Task where
  | tExpr (e : Expr)
  | tStmt (s : Stmt)
  | tStmts (ss : List Stmt)
  | tArgs (es : List Expr)
  | tCall (callee : Value) (args : List Value) (paren : Token)
deriving Repr

/-- Result of a unit of work. -/
inductive TRes where
  | rEval (o : EvalOut)
  | rExec (o : ExecOut)
  | rArgs (o : ArgsOut)
deriving Repr

/-- The arity of a callable (`Callable.arity`): 0 for `clock`, the parameter
count for a user function. -/
def arityOf : CallableData → ℕ
  | .native => 0
  | .closure _ params _ _ => params.length

/-- Bind parameters to arguments in order (`Function.call`'s loop;
`args[i]` for a missing argument is `undefined`, unreachable because arity is
checked first — modelled as nil). -/
def bindParams (params : List Token) (args : List Value) : List (String × Value) :=
  match params, args with
  | [], _ => []
  | p :: ps, [] => (p.lexeme, Value.vnil) :: bindParams ps []
  | p :: ps, a :: as1 => (p.lexeme, a) :: bindParams ps as1

/-- The tree walker.  Each recursive call consumes one unit of fuel; `none`
means the fuel ran out (the JS program would still be running).

  * `tExpr` is `Interpreter.evaluate` (the `visit*Expr` methods);
  * `tStmt` is `Interpreter.execute` (the `visit*Stmt` methods), with
    `Stmt.sBlock` performing `executeBlock` — push a child environment, run,
    and restore the previous environment on every outcome (`finally`);
  * `tStmts` is the statement list loop of `executeBlock`/`interpret`;
  * `tArgs` is `visitCallExpr`'s left-to-right argument evaluation;
  * `tCall` is the dispatch to `Callable.call`: for a user function, run the
    body in a fresh environment chained to the closure (`Function.call`),
    catching `Return` — and only `Return` — at the boundary. -/
def run1 : ℕ → Task → IState → Option (TRes × IState)
  | 0, _, _ => none
  | fuel + 1, task, σ =>
    match task with
    | .tExpr e =>
      match e with
      | .literal v => some (.rEval (.val (litValue v)), σ)
      | .grouping inner => run1 fuel (.tExpr inner) σ
      | .unary op right =>
        match run1 fuel (.tExpr right) σ with
        | some (.rEval (.val rv), σ1) =>
          match unaryOp op rv with
          | .ok v => some (.rEval (.val v), σ1)
          | .error err => some (.rEval (.rerr err), σ1)
        | other => other
      | .binary left op right =>
        match run1 fuel (.tExpr left) σ with
        | some (.rEval (.val lv), σ1) =>
          match run1 fuel (.tExpr right) σ1 with
          | some (.rEval (.val rv), σ2) =>
            match binaryOp op lv rv with
            | .ok v => some (.rEval (.val v), σ2)
            | .error err => some (.rEval (.rerr err), σ2)
          | other => other
        | other => other
      | .ternary c thenB elseB =>
        match run1 fuel (.tExpr c) σ with
        | some (.rEval (.val cv), σ1) =>
          if isTruthy cv then run1 fuel (.tExpr thenB) σ1
          else run1 fuel (.tExpr elseB) σ1
        | other => other
      | .variable name =>
        match σ.getVar name with
        | .ok v => some (.rEval (.val v), σ)
        | .error err => some (.rEval (.rerr err), σ)
      | .assign name value =>
        match run1 fuel (.tExpr value) σ with
        | some (.rEval (.val v), σ1) =>
          match σ1.assignVar name v with
          | .ok σ2 => some (.rEval (.val v), σ2)
          | .error err => some (.rEval (.rerr err), σ1)
        | other => other
      | .call callee paren args =>
        match run1 fuel (.tExpr callee) σ with
        | some (.rEval (.val cv), σ1) =>
          match run1 fuel (.tArgs args) σ1 with
          | some (.rArgs (.vals vs), σ2) =>
            match cv with
            | .vcallable _ data =>
              if vs.length ≠ arityOf data then
                some (.rEval (.rerr ⟨paren,
                  "Expected " ++ toString (arityOf data) ++ " arguments but got " ++
                    toString vs.length ++ "."⟩), σ2)
              else run1 fuel (.tCall cv vs paren) σ2
            | _ => some (.rEval (.rerr ⟨paren, "Can only call functions and classes."⟩), σ2)
          | some (.rArgs (.rerr err), σ2) => some (.rEval (.rerr err), σ2)
          | some (.rArgs .brk, σ2) => some (.rEval .brk, σ2)
          | some (r, σ2) => some (r, σ2)   -- impossible: tArgs yields rArgs
          | none => none
        | other => other
    | .tArgs es =>
      match es with
      | [] => some (.rArgs (.vals []), σ)
      | e :: rest =>
        match run1 fuel (.tExpr e) σ with
        | some (.rEval (.val v), σ1) =>
          match run1 fuel (.tArgs rest) σ1 with
          | some (.rArgs (.vals vs), σ2) => some (.rArgs (.vals (v :: vs)), σ2)
          | other => other
        | some (.rEval (.rerr err), σ1) => some (.rArgs (.rerr err), σ1)
        | some (.rEval .brk, σ1) => some (.rArgs .brk, σ1)
        | some (r, σ1) => some (r, σ1)   -- impossible: tExpr yields rEval
        | none => none
    | .tCall cv args paren =>
      match cv with
      | .vcallable _ .native =>
        -- the native `clock`: `Date.now() / 1000.0`
        some (.rEval (.val (.vnum σ.now)), σ)
      | .vcallable _ (.closure _ params body envId) =>
        let newId := σ.frames.length
        let σc : IState :=
          { σ with frames := σ.frames ++ [⟨some envId, bindParams params args⟩], cur := newId }
        (match run1 fuel (.tStmts body) σc with
         | some (.rExec (.ret v), σ1) => some (.rEval (.val v), { σ1 with cur := σ.cur })
         | some (.rExec .normal, σ1) => some (.rEval (.val .vnil), { σ1 with cur := σ.cur })
         | some (.rExec .brk, σ1) => some (.rEval .brk, { σ1 with cur := σ.cur })
         | some (.rExec (.rerr err), σ1) => some (.rEval (.rerr err), { σ1 with cur := σ.cur })
         | some (r, σ1) => some (r, { σ1 with cur := σ.cur })   -- impossible
         | none => none)
      | _ => some (.rEval (.rerr ⟨paren, "Can only call functions and classes."⟩), σ)
    | .tStmts ss =>
      match ss with
      | [] => some (.rExec .normal, σ)
      | s :: rest =>
        match run1 fuel (.tStmt s) σ with
        | some (.rExec .normal, σ1) => run1 fuel (.tStmts rest) σ1
        | other => other
    | .tStmt s =>
      match s with
      | .sExpression e =>
        match run1 fuel (.tExpr e) σ with
        | some (.rEval (.val _), σ1) => some (.rExec .normal, σ1)
        | some (.rEval (.rerr err), σ1) => some (.rExec (.rerr err), σ1)
        | some (.rEval .brk, σ1) => some (.rExec .brk, σ1)
        | some (r, σ1) => some (r, σ1)   -- impossible
        | none => none
      | .sPrint e =>
        match run1 fuel (.tExpr e) σ with
        | some (.rEval (.val v), σ1) =>
          some (.rExec .normal, { σ1 with output := σ1.output ++ [stringify v] })
        | some (.rEval (.rerr err), σ1) => some (.rExec (.rerr err), σ1)
        | some (.rEval .brk, σ1) => some (.rExec .brk, σ1)
        | some (r, σ1) => some (r, σ1)   -- impossible
        | none => none
      | .sVar name init =>
        match init with
        | none => some (.rExec .normal, σ.define name.lexeme .vnil)
        | some e =>
          match run1 fuel (.tExpr e) σ with
          | some (.rEval (.val v), σ1) => some (.rExec .normal, σ1.define name.lexeme v)
          | some (.rEval (.rerr err), σ1) => some (.rExec (.rerr err), σ1)
          | some (.rEval .brk, σ1) => some (.rExec .brk, σ1)
          | some (r, σ1) => some (r, σ1)   -- impossible
          | none => none
      | .sBlock stmts =>
        let previous := σ.cur
        let newId := σ.frames.length
        let σ1 : IState := { σ with frames := σ.frames ++ [⟨some previous, []⟩], cur := newId }
        (match run1 fuel (.tStmts stmts) σ1 with
         | some (r, σ2) => some (r, { σ2 with cur := previous })
         | none => none)
      | .sIf c thenB elseB =>
        match run1 fuel (.tExpr c) σ with
        | some (.rEval (.val cv), σ1) =>
          if isTruthy cv then run1 fuel (.tStmt thenB) σ1
          else
            match elseB with
            | some els => run1 fuel (.tStmt els) σ1
            | none => some (.rExec .normal, σ1)
        | some (.rEval (.rerr err), σ1) => some (.rExec (.rerr err), σ1)
        | some (.rEval .brk, σ1) => some (.rExec .brk, σ1)
        | some (r, σ1) => some (r, σ1)   -- impossible
        | none => none
      | .sWhile c body =>
        match run1 fuel (.tExpr c) σ with
        | some (.rEval (.val cv), σ1) =>
          if isTruthy cv then
            match run1 fuel (.tStmt body) σ1 with
            | some (.rExec .normal, σ2) => run1 fuel (.tStmt (.sWhile c body)) σ2
            | some (.rExec .brk, σ2) => some (.rExec .normal, σ2)   -- catch BreakInterrupt
            | other => other
          else some (.rExec .normal, σ1)
        | some (.rEval (.rerr err), σ1) => some (.rExec (.rerr err), σ1)
        | some (.rEval .brk, σ1) => some (.rExec .brk, σ1)
        | some (r, σ1) => some (r, σ1)   -- impossible
        | none => none
      | .sBreak => some (.rExec .brk, σ)
      | .sFunction name params body =>
        let fv : Value := .vcallable σ.nextId (.closure name params body σ.cur)
        some (.rExec .normal, ({ σ with nextId := σ.nextId + 1 } : IState).define name.lexeme fv)
      | .sReturn _ value =>
        match value with
        | none => some (.rExec (.ret .vnil), σ)
        | some e =>
          match run1 fuel (.tExpr e) σ with
          | some (.rEval (.val v), σ1) => some (.rExec (.ret v), σ1)
          | some (.rEval (.rerr err), σ1) => some (.rExec (.rerr err), σ1)
          | some (.rEval .brk, σ1) => some (.rExec .brk, σ1)
          | some (r, σ1) => some (r, σ1)   -- impossible
          | none => none

/-- `Interpreter.evaluate`. -/
def evaluate (fuel : ℕ) (e : Expr) (σ : IState) : Option (EvalOut × IState) :=
  match run1 fuel (.tExpr e) σ with
  | some (.rEval o, σ1) => some (o, σ1)
  | _ => none

/-- `Interpreter.execute`. -/
def execute (fuel : ℕ) (s : Stmt) (σ : IState) : Option (ExecOut × IState) :=
  match run1 fuel (.tStmt s) σ with
  | some (.rExec o, σ1) => some (o, σ1)
  | _ => none

/-- Execute a statement list in order (the loop inside `interpret` and
`executeBlock`). -/
def executeStmts (fuel : ℕ) (ss : List Stmt) (σ : IState) : Option (ExecOut × IState) :=
  match run1 fuel (.tStmts ss) σ with
  | some (.rExec o, σ1) => some (o, σ1)
  | _ => none

/-- The observable outcome of `Interpreter.interpret`: it catches — and
reports — a `RuntimeError`, and rethrows anything else, so a `BreakInterrupt`
or `Return` transfer that reaches the top level escapes `interpret`. -/
inductive InterpResult where
  | completed
  | runtimeReported (e : RErr)
  | escapedBreak
  | escapedReturn (v : Value)
deriving Repr

/-- `Interpreter.interpret`. -/
def interpret (fuel : ℕ) (ss : List Stmt) (σ : IState) : Option (InterpResult × IState) :=
  match executeStmts fuel ss σ with
  | some (.normal, σ1) => some (.completed, σ1)
  | some (.rerr e, σ1) => some (.runtimeReported e, σ1)
  | some (.brk, σ1) => some (.escapedBreak, σ1)
  | some (.ret v, σ1) => some (.escapedReturn v, σ1)
  | none => none

/-! ## The driver (`run` in the current `Oxente.js` entry point) -/

/-- The outcome of the driver's `run(source)`: scan, parse, stop if any error
was reported (`hadError`), otherwise interpret. -/
inductive RunResult where
  | staticError
  | ran (r : InterpResult)
deriving Repr

/-- The driver `run(source)`: scan; parse; if `hadError` (any scan or parse
error was reported) return without interpreting; else interpret.  Returns the
outcome and the lines printed to standard output. -/
def run (fuel : ℕ) (source : String) (now : ℚ) : Option (RunResult × List String) :=
  let sc := scanFinal source
  let tokens := scanTokens source
  match parseProgram fuel tokens with
  | none => none
  | some (stmts, pσ) =>
    if sc.errors ≠ [] ∨ pσ.errors ≠ [] then some (.staticError, [])
    else
      match interpret fuel stmts (initState now) with
      | none => none
      | some (r, σ1) => some (.ran r, σ1.output)

/-! ## Auxiliary definitions for the claims -/

/-- The result the operator switch of `visitBinaryExpr` produces for the
numeric operators once both operands are known to be numbers and the `/`
zero check has passed (the "numeric result" of claim C5). -/
def numOpResult (t : TokType) (a b : ℚ) : Value :=
  match t with
  | .MINUS => .vnum (a - b)
  | .STAR => .vnum (a * b)
  | .SLASH => .vnum (a / b)
  | .GREATER => .vbool (b < a)
  | .GREATER_EQUAL => .vbool (b ≤ a)
  | .LESS => .vbool (a < b)
  | .LESS_EQUAL => .vbool (a ≤ b)
  | _ => .vnil

/-- The operators claim C5 ranges over. -/
def numOps : List TokType :=
  [.MINUS, .STAR, .SLASH, .GREATER, .GREATER_EQUAL, .LESS, .LESS_EQUAL]

mutual

/-- No `Assign` node targeting `x` occurs anywhere in the expression. -/
def exprNoAssign (x : String) : Expr → Bool
  | .literal _ => true
  | .grouping e => exprNoAssign x e
  | .unary _ r => exprNoAssign x r
  | .binary l _ r => exprNoAssign x l && exprNoAssign x r
  | .ternary c t e => exprNoAssign x c && exprNoAssign x t && exprNoAssign x e
  | .variable _ => true
  | .assign name v => (name.lexeme ≠ x) && exprNoAssign x v
  | .call c _ args => exprNoAssign x c && exprsNoAssign x args

/-- `exprNoAssign` over an argument list. -/
def exprsNoAssign (x : String) : List Expr → Bool
  | [] => true
  | e :: es => exprNoAssign x e && exprsNoAssign x es

end

mutual

/-- No `Assign` node targeting `x` occurs anywhere in the statement
(function bodies included). -/
def stmtNoAssign (x : String) : Stmt → Bool
  | .sExpression e => exprNoAssign x e
  | .sPrint e => exprNoAssign x e
  | .sVar _ none => true
  | .sVar _ (some e) => exprNoAssign x e
  | .sBlock ss => stmtsNoAssign x ss
  | .sIf c t none => exprNoAssign x c && stmtNoAssign x t
  | .sIf c t (some e) => exprNoAssign x c && stmtNoAssign x t && stmtNoAssign x e
  | .sWhile c b => exprNoAssign x c && stmtNoAssign x b
  | .sBreak => true
  | .sFunction _ _ body => stmtsNoAssign x body
  | .sReturn _ none => true
  | .sReturn _ (some e) => exprNoAssign x e

/-- `stmtNoAssign` over a statement list. -/
def stmtsNoAssign (x : String) : List Stmt → Bool
  | [] => true
  | s :: ss => stmtNoAssign x s && stmtsNoAssign x ss

end

mutual

/-- No `Call` node occurs anywhere in the expression. -/
def exprCallFree : Expr → Bool
  | .literal _ => true
  | .grouping e => exprCallFree e
  | .unary _ r => exprCallFree r
  | .binary l _ r => exprCallFree l && exprCallFree r
  | .ternary c t e => exprCallFree c && exprCallFree t && exprCallFree e
  | .variable _ => true
  | .assign _ v => exprCallFree v
  | .call _ _ _ => false

end

mutual

/-- No `Call` node occurs anywhere in the statement (function bodies
included). -/
def stmtCallFree : Stmt → Bool
  | .sExpression e => exprCallFree e
  | .sPrint e => exprCallFree e
  | .sVar _ none => true
  | .sVar _ (some e) => exprCallFree e
  | .sBlock ss => stmtsCallFree ss
  | .sIf c t none => exprCallFree c && stmtCallFree t
  | .sIf c t (some e) => exprCallFree c && stmtCallFree t && stmtCallFree e
  | .sWhile c b => exprCallFree c && stmtCallFree b
  | .sBreak => true
  | .sFunction _ _ body => stmtsCallFree body
  | .sReturn _ none => true
  | .sReturn _ (some e) => exprCallFree e

/-- `stmtCallFree` over a statement list. -/
def stmtsCallFree : List Stmt → Bool
  | [] => true
  | s :: ss => stmtCallFree s && stmtsCallFree ss

end

/-- `exprCallFree` over an argument list. -/
def exprsCallFree (es : List Expr) : Bool := es.all exprCallFree

/-- `taskCallFree`: the code a task will run contains no `Call` node (a call
task itself is a call). -/
def taskCallFree : Task → Bool
  | .tExpr e => exprCallFree e
  | .tStmt s => stmtCallFree s
  | .tStmts ss => stmtsCallFree ss
  | .tArgs es => exprsCallFree es
  | .tCall _ _ _ => false

/-- `taskNoAssign x`: the code a task will run contains no `Assign` node
targeting `x`. -/
def taskNoAssign (x : String) : Task → Bool
  | .tExpr e => exprNoAssign x e
  | .tStmt s => stmtNoAssign x s
  | .tStmts ss => stmtsNoAssign x ss
  | .tArgs es => exprsNoAssign x es
  | .tCall _ _ _ => false

/-- Well-formedness of an interpreter state: the current environment exists
and every parent link points to an earlier frame of the arena (true by
construction: a new environment's parent is an already-existing one). -/
def wfState (σ : IState) : Prop :=
  σ.cur < σ.frames.length ∧
  ∀ i, i < σ.frames.length → ∀ p, (σ.frame i).parent = some p → p < i

/-- Does frame `i` have a binding for `x`? -/
def hasVarAt (σ : IState) (i : ℕ) (x : String) : Bool :=
  (List.lookup x (σ.frame i).vars).isSome

/-- What one step of execution preserves about the binding of `x` that lives
in frame `f` (claim C7's frame condition): the current environment is
restored, the arena only grows, parent links of existing frames never change,
the presence of `x` changes at most in the current frame (and is never
removed anywhere), and the value bound to `x` in `f` is untouched. -/
def statePreserved (x : String) (f : ℕ) (σ σ1 : IState) : Prop :=
  σ1.cur = σ.cur ∧
  σ.frames.length ≤ σ1.frames.length ∧
  (∀ i, i < σ.frames.length → (σ1.frame i).parent = (σ.frame i).parent) ∧
  (∀ i, i < σ.frames.length → i ≠ σ.cur → hasVarAt σ1 i x = hasVarAt σ i x) ∧
  (∀ i, i < σ.frames.length → hasVarAt σ i x = true → hasVarAt σ1 i x = true) ∧
  List.lookup x (σ1.frame f).vars = List.lookup x (σ.frame f).vars ∧
  (wfState σ → wfState σ1)

/-- The environment lookup for `x` from the current environment does not
resolve to frame `f` (the shadowing protection of claim C7). -/
def protectedFrom (σ : IState) (x : String) (f : ℕ) : Prop :=
  σ.resolve σ.cur x ≠ some f

/-- A name token for the concrete claim programs. -/
def identToken (s : String) : Token := ⟨.IDENTIFIER, s, none, 1⟩

/-- The AST program of claim C9's witness: `fun g() { break; } g();`
(constructed directly — the scanner's missing `break` keyword and the
parser's missing `fun`/call rules make these nodes unreachable from source
text, but the evaluator supports them). -/
def progC9 : List Stmt :=
  [.sFunction (identToken "g") [] [.sBreak],
   .sExpression (.call (.variable (identToken "g")) ⟨.RIGHT_PAREN, ")", none, 1⟩ [])]

/-- The prelude of claim C7's counterexample: `var x = 1;` and a function
`g` whose body assigns `x = 2` (declared at the global scope, so its closure
is the global environment). -/
def progC7Prelude : List Stmt :=
  [.sVar (identToken "x") (some (.literal (.lnum 1))),
   .sFunction (identToken "g") []
     [.sExpression (.assign (identToken "x") (.literal (.lnum 2)))]]

/-- The block of claim C7's counterexample: `{ var x = 9; g(); }` — it
defines a fresh `x` (as its first statement) and contains no assignment to
`x` at all, yet calling `g` writes the *global* `x` through the closure's
environment chain. -/
def blockC7 : List Stmt :=
  [.sVar (identToken "x") (some (.literal (.lnum 9))),
   .sExpression (.call (.variable (identToken "g")) ⟨.RIGHT_PAREN, ")", none, 1⟩ [])]

/-- Does this statement declare a variable named `x` (`var x ...;`)? -/
def declaresVar (x : String) : Stmt → Bool
  | .sVar name _ => name.lexeme == x
  | _ => false

/-- The shadow discipline of claim C7's amendment: every statement up to and
including the first `var x ...;` declaration of the list is free of
assignments to `x` (the declaration's own initializer included); after that
declaration — whose fresh binding shadows the outer one — anything goes. -/
def shadowList (x : String) : List Stmt → Bool
  | [] => true
  | s :: rest => stmtNoAssign x s && (declaresVar x s || shadowList x rest)

/-- The block of claim C7's witness: `{ var x = 9; x = 7; }` — it defines a
fresh `x` and then assigns to `x` after that definition, exactly the claim's
scenario. -/
def blockC7W : List Stmt :=
  [.sVar (identToken "x") (some (.literal (.lnum 9))),
   .sExpression (.assign (identToken "x") (.literal (.lnum 7)))]

/-- The enclosing state of claim C7's witness: the initial interpreter state
with a global `x = 1` (what `var x = 1;` at the top level produces). -/
def σC7W : IState :=
  ⟨[⟨none, [("clock", .vcallable 0 .native), ("x", .vnum 1)]⟩], 0, 1, [], 0⟩

/-- What claim C7's witness observes of running its block: the restored
current environment and the binding of `x` in the global frame. -/
def c7wView : Option (ℕ × Option Value) :=
  (run1 10 (.tStmt (.sBlock blockC7W)) σC7W).map
    (fun p => (p.2.cur, List.lookup "x" (p.2.frame 0).vars))

/-- What claim C7's counterexample observes after the prelude (`var x = 1;`
and the declaration of `g`): the outcome, the current environment and the
binding of `x` in the global frame. -/
def c7ctrMidView : Option (ExecOut × ℕ × Option Value) :=
  (executeStmts 30 progC7Prelude (initState 0)).map
    (fun p => (p.1, p.2.cur, List.lookup "x" (p.2.frame 0).vars))

/-- What claim C7's counterexample observes after then executing the block
`{ var x = 9; g(); }`. -/
def c7ctrEndView : Option (ExecOut × ℕ × Option Value) :=
  ((executeStmts 30 progC7Prelude (initState 0)).bind
    (fun p => execute 30 (.sBlock blockC7) p.2)).map
    (fun p => (p.1, p.2.cur, List.lookup "x" (p.2.frame 0).vars))

/-! ## Scanner infrastructure lemmas (for claims C8 and C10) -/

theorem matchChar_source (σ : ScanState) (c : Char) : (σ.matchChar c).2.source = σ.source := by
  unfold ScanState.matchChar; split_ifs <;> rfl

theorem matchChar_current (σ : ScanState) (c : Char) :
    σ.current ≤ (σ.matchChar c).2.current := by
  unfold ScanState.matchChar; split_ifs <;> simp

theorem stringLoop_source (fuel : ℕ) : ∀ σ, (stringLoop fuel σ).source = σ.source := by
  induction fuel with
  | zero => intro σ; rfl
  | succ n ih =>
    intro σ
    unfold stringLoop
    dsimp only
    split
    · rw [ih]; split <;> rfl
    · rfl

theorem stringLoop_current (fuel : ℕ) : ∀ σ, σ.current ≤ (stringLoop fuel σ).current := by
  induction fuel with
  | zero => intro σ; exact le_refl _
  | succ n ih =>
    intro σ
    unfold stringLoop
    dsimp only
    split
    · have h1 : ((if σ.peek = '\n' then { σ with line := σ.line + 1 } else σ).advance.2).current
          = σ.current + 1 := by split <;> rfl
      have h2 := ih ((if σ.peek = '\n' then { σ with line := σ.line + 1 } else σ).advance.2)
      omega
    · exact le_refl _

theorem lineCommentLoop_source (fuel : ℕ) :
    ∀ σ, (lineCommentLoop fuel σ).source = σ.source := by
  induction fuel with
  | zero => intro σ; rfl
  | succ n ih => intro σ; unfold lineCommentLoop; split
                 · rw [ih]; rfl
                 · rfl

theorem lineCommentLoop_current (fuel : ℕ) :
    ∀ σ, σ.current ≤ (lineCommentLoop fuel σ).current := by
  induction fuel with
  | zero => intro σ; exact le_refl _
  | succ n ih =>
    intro σ; unfold lineCommentLoop; split
    · have h2 := ih σ.advance.2
      have h1 : σ.advance.2.current = σ.current + 1 := rfl
      omega
    · exact le_refl _

theorem blockCommentLoop_source (fuel : ℕ) :
    ∀ σ, (blockCommentLoop fuel σ).source = σ.source := by
  induction fuel with
  | zero => intro σ; rfl
  | succ n ih =>
    intro σ; unfold blockCommentLoop; dsimp only; split
    · split
      · rfl
      · rw [ih]; split <;> rfl
    · rfl

theorem blockCommentLoop_current (fuel : ℕ) :
    ∀ σ, σ.current ≤ (blockCommentLoop fuel σ).current := by
  induction fuel with
  | zero => intro σ; exact le_refl _
  | succ n ih =>
    intro σ; unfold blockCommentLoop; dsimp only; split
    · split
      · simp [ScanState.advance]
        omega
      · have h1 : ((if σ.peek = '\n' then { σ with line := σ.line + 1 } else σ).advance.2).current
            = σ.current + 1 := by split <;> rfl
        have h2 := ih ((if σ.peek = '\n' then { σ with line := σ.line + 1 } else σ).advance.2)
        omega
    · exact le_refl _

theorem digitsLoop_source (fuel : ℕ) : ∀ σ, (digitsLoop fuel σ).source = σ.source := by
  induction fuel with
  | zero => intro σ; rfl
  | succ n ih => intro σ; unfold digitsLoop; split
                 · rw [ih]; rfl
                 · rfl

theorem digitsLoop_current (fuel : ℕ) : ∀ σ, σ.current ≤ (digitsLoop fuel σ).current := by
  induction fuel with
  | zero => intro σ; exact le_refl _
  | succ n ih =>
    intro σ; unfold digitsLoop; split
    · have h2 := ih σ.advance.2
      have h1 : σ.advance.2.current = σ.current + 1 := rfl
      omega
    · exact le_refl _

theorem identLoop_source (fuel : ℕ) : ∀ σ, (identLoop fuel σ).source = σ.source := by
  induction fuel with
  | zero => intro σ; rfl
  | succ n ih => intro σ; unfold identLoop; split
                 · rw [ih]; rfl
                 · rfl

theorem identLoop_current (fuel : ℕ) : ∀ σ, σ.current ≤ (identLoop fuel σ).current := by
  induction fuel with
  | zero => intro σ; exact le_refl _
  | succ n ih =>
    intro σ; unfold identLoop; split
    · have h2 := ih σ.advance.2
      have h1 : σ.advance.2.current = σ.current + 1 := rfl
      omega
    · exact le_refl _

theorem stringFinish_source (σ1 : ScanState) : (stringFinish σ1).source = σ1.source := by
  unfold stringFinish
  split
  · rfl
  · simp [ScanState.addToken, ScanState.advance]

theorem stringFinish_current (σ1 : ScanState) : σ1.current ≤ (stringFinish σ1).current := by
  unfold stringFinish
  split
  · exact le_refl _
  · simp [ScanState.addToken, ScanState.advance]

theorem scanString_source (σ : ScanState) : (scanString σ).source = σ.source := by
  unfold scanString
  rw [stringFinish_source, stringLoop_source]

theorem scanString_current (σ : ScanState) : σ.current ≤ (scanString σ).current := by
  unfold scanString
  exact le_trans (stringLoop_current _ _) (stringFinish_current _)

theorem numberFrac_source (σ1 : ScanState) : (numberFrac σ1).source = σ1.source := by
  unfold numberFrac
  split
  · rw [digitsLoop_source]; rfl
  · rfl

theorem numberFrac_current (σ1 : ScanState) : σ1.current ≤ (numberFrac σ1).current := by
  unfold numberFrac
  split
  · have h1 := digitsLoop_current (σ1.source.length + 1) σ1.advance.2
    have h2 : σ1.advance.2.current = σ1.current + 1 := rfl
    omega
  · exact le_refl _

theorem scanNumber_source (σ : ScanState) : (scanNumber σ).source = σ.source := by
  unfold scanNumber numberFinish
  simp only [ScanState.addToken]
  rw [numberFrac_source, digitsLoop_source]

theorem scanNumber_current (σ : ScanState) : σ.current ≤ (scanNumber σ).current := by
  unfold scanNumber numberFinish
  simp only [ScanState.addToken]
  exact le_trans (digitsLoop_current _ _) (numberFrac_current _)

theorem scanIdentifier_source (σ : ScanState) : (scanIdentifier σ).source = σ.source := by
  unfold scanIdentifier identFinish
  simp only [ScanState.addToken]
  rw [identLoop_source]

theorem scanIdentifier_current (σ : ScanState) : σ.current ≤ (scanIdentifier σ).current := by
  unfold scanIdentifier identFinish
  simp only [ScanState.addToken]
  exact identLoop_current _ _

set_option maxHeartbeats 2000000 in
theorem scanTokenDispatch_source (c : Char) (σ : ScanState) :
    (scanTokenDispatch c σ).source = σ.source := by
  unfold scanTokenDispatch
  split <;> (try split_ifs) <;>
    simp [ScanState.addToken, ScanState.reportError, matchChar_source,
      lineCommentLoop_source, blockCommentLoop_source, scanString_source,
      scanNumber_source, scanIdentifier_source]

set_option maxHeartbeats 2000000 in
theorem scanTokenDispatch_current (c : Char) (σ : ScanState) :
    σ.current ≤ (scanTokenDispatch c σ).current := by
  unfold scanTokenDispatch
  split <;> (try split_ifs) <;>
    first
      | (simp [ScanState.addToken, ScanState.reportError]; done)
      | (simp only [ScanState.addToken]; exact matchChar_current _ _)
      | (exact le_trans (matchChar_current _ _) (lineCommentLoop_current _ _))
      | (exact le_trans (matchChar_current _ _)
          (le_trans (matchChar_current _ _) (blockCommentLoop_current _ _)))
      | (exact scanString_current _)
      | (exact scanNumber_current _)
      | (exact scanIdentifier_current _)

theorem scanToken_source (σ0 : ScanState) : (scanToken σ0).source = σ0.source := by
  unfold scanToken
  rw [scanTokenDispatch_source]
  rfl

theorem scanToken_progress (σ0 : ScanState) : σ0.current < (scanToken σ0).current := by
  unfold scanToken
  have h1 := scanTokenDispatch_current σ0.advance.1 σ0.advance.2
  have h2 : σ0.advance.2.current = σ0.current + 1 := rfl
  omega

theorem scanLoop_atEnd (m : ℕ) (σ : ScanState) (h : σ.isAtEnd) : scanLoop m σ = σ := by
  cases m with
  | zero => rfl
  | succ n => unfold scanLoop; simp [h]

theorem scanLoop_succ_step (m : ℕ) (σ : ScanState) (h : ¬ σ.isAtEnd = true) :
    scanLoop (m + 1) σ = scanLoop m (scanToken { σ with start := σ.current }) := by
  conv_lhs => simp only [scanLoop]
  rw [if_neg h]

theorem scanLoop_add (k : ℕ) : ∀ (m : ℕ) (σ : ScanState),
    scanLoop (k + m) σ = scanLoop m (scanLoop k σ) := by
  induction k with
  | zero => intro m σ; rw [Nat.zero_add]; rfl
  | succ n ih =>
    intro m σ
    by_cases h : σ.isAtEnd
    · rw [scanLoop_atEnd _ _ h, scanLoop_atEnd _ _ h]
      exact (scanLoop_atEnd _ _ h).symm
    · have h1 : n + 1 + m = (n + m) + 1 := by omega
      rw [h1, scanLoop_succ_step _ _ h, scanLoop_succ_step _ _ h, ih]

theorem scanLoop_indep (m1 : ℕ) : ∀ (m2 : ℕ) (σ : ScanState),
    σ.source.length - σ.current < m1 → σ.source.length - σ.current < m2 →
    scanLoop m1 σ = scanLoop m2 σ := by
  induction m1 with
  | zero => intro m2 σ h1 h2; omega
  | succ n ih =>
    intro m2 σ h1 h2
    by_cases hend : σ.isAtEnd
    · rw [scanLoop_atEnd _ _ hend, scanLoop_atEnd _ _ hend]
    · have hlt : σ.current < σ.source.length := by
        unfold ScanState.isAtEnd at hend
        simp at hend
        omega
      obtain ⟨m2p, rfl⟩ : ∃ m2p, m2 = m2p + 1 := ⟨m2 - 1, by omega⟩
      rw [scanLoop_succ_step _ _ hend, scanLoop_succ_step _ _ hend]
      have hsrc : (scanToken { σ with start := σ.current }).source = σ.source :=
        scanToken_source _
      have hcur : σ.current < (scanToken { σ with start := σ.current }).current :=
        scanToken_progress { σ with start := σ.current }
      exact ih m2p (scanToken { σ with start := σ.current })
        (by rw [hsrc]; omega) (by rw [hsrc]; omega)

theorem scanLoop_reaches_end (fuel : ℕ) : ∀ σ : ScanState,
    σ.source.length - σ.current < fuel → (scanLoop fuel σ).isAtEnd = true := by
  induction fuel with
  | zero => intro σ h; omega
  | succ n ih =>
    intro σ h
    by_cases hend : σ.isAtEnd
    · rw [scanLoop_atEnd _ _ hend]; exact hend
    · have hlt : σ.current < σ.source.length := by
        unfold ScanState.isAtEnd at hend
        simp at hend
        omega
      rw [scanLoop_succ_step _ _ hend]
      have hsrc : (scanToken { σ with start := σ.current }).source = σ.source :=
        scanToken_source _
      have hcur : σ.current < (scanToken { σ with start := σ.current }).current :=
        scanToken_progress { σ with start := σ.current }
      exact ih _ (by rw [hsrc]; omega)

/-- The behaviour of the string-literal loop when no closing quote remains:
it consumes everything to the end of the input, emitting no token and
touching neither the token list, the error list, the source, nor `start`. -/
theorem stringLoop_noQuote (fuel : ℕ) : ∀ σ : ScanState,
    σ.source.length - σ.current < fuel →
    (∀ j, σ.current ≤ j → j < σ.source.length → σ.source.getD j '\x00' ≠ '"') →
    (stringLoop fuel σ).isAtEnd = true ∧
    (stringLoop fuel σ).tokens = σ.tokens ∧
    (stringLoop fuel σ).errors = σ.errors ∧
    (stringLoop fuel σ).source = σ.source ∧
    (stringLoop fuel σ).start = σ.start := by
  induction fuel with
  | zero => intro σ h; omega
  | succ n ih =>
    intro σ h hq
    by_cases hend : σ.isAtEnd
    · unfold stringLoop
      simp only [hend]
      simp [hend]
    · have hlt : σ.current < σ.source.length := by
        unfold ScanState.isAtEnd at hend
        simp at hend
        omega
      have hpeek : σ.peek ≠ '"' := by
        unfold ScanState.peek
        simp only [hend, Bool.false_eq_true, if_false, if_neg]
        exact hq σ.current (le_refl _) hlt
      unfold stringLoop
      simp only [hpeek, hend, Bool.false_eq_true, not_false_eq_true, and_true, ne_eq,
        not_false_iff, if_true, if_pos, true_and]
      set σm := if σ.peek = '\n' then { σ with line := σ.line + 1 } else σ with hσm
      have hmsrc : σm.source = σ.source := by rw [hσm]; split <;> rfl
      have hmcur : σm.current = σ.current := by rw [hσm]; split <;> rfl
      have hmtok : σm.tokens = σ.tokens := by rw [hσm]; split <;> rfl
      have hmerr : σm.errors = σ.errors := by rw [hσm]; split <;> rfl
      have hmstart : σm.start = σ.start := by rw [hσm]; split <;> rfl
      have hrec := ih σm.advance.2
        (by simp only [ScanState.advance, hmsrc, hmcur]; omega)
        (by intro j hj1 hj2
            simp only [ScanState.advance, hmsrc, hmcur] at hj1 hj2 ⊢
            exact hq j (by omega) hj2)
      simpa [ScanState.advance, hmsrc, hmcur, hmtok, hmerr, hmstart] using hrec

theorem scanLoop_source (m : ℕ) : ∀ σ, (scanLoop m σ).source = σ.source := by
  induction m with
  | zero => intro σ; rfl
  | succ n ih =>
    intro σ
    by_cases h : σ.isAtEnd
    · rw [scanLoop_atEnd _ _ h]
    · rw [scanLoop_succ_step _ _ h, ih, scanToken_source]

/-! ## Claim theorems -/

/-- C8: for every source string the scanner's main loop terminates — the
fuel bound `source.length + 1` is sufficient and the result is the same for
any larger fuel — having consumed the whole source, and the token list ends
(non-empty) with an `EOF` token whose lexeme is empty and whose line is the
line counter reached after scanning the whole source. -/
theorem scanTerminatesWithEof (source : String) (m : ℕ)
    (hm : source.data.length + 1 ≤ m) :
    scanLoop m (initScan source) = scanFinal source ∧
    (scanFinal source).isAtEnd = true ∧
    scanTokens source ≠ [] ∧
    (scanTokens source).getLast? = some ⟨.EOF, "", none, (scanFinal source).line⟩ := by
  have hmeas : (initScan source).source.length - (initScan source).current
      = source.data.length := by simp [initScan]
  refine ⟨?_, ?_, ?_, ?_⟩
  · exact scanLoop_indep m (source.data.length + 1) (initScan source)
      (by omega) (by omega)
  · exact scanLoop_reaches_end _ _ (by omega)
  · simp [scanTokens]
  · unfold scanTokens
    exact List.getLast?_concat _

/-- C8 witness: the termination-and-EOF theorem applied to the concrete
source `"ab"` with fuel 4. -/
theorem scanTerminatesWithEofWitness :
    scanLoop 4 (initScan "ab") = scanFinal "ab" ∧
    (scanFinal "ab").isAtEnd = true ∧
    scanTokens "ab" ≠ [] ∧
    (scanTokens "ab").getLast? = some ⟨.EOF, "", none, (scanFinal "ab").line⟩ :=
  scanTerminatesWithEof "ab" 4 (by decide)

/-- C10: if the scanner's loop reaches a state whose next character opens a
string literal that is never closed (no further `"` in the source), then the
scan reports "Unterminated string." and emits no `STRING` token: the final
token list is exactly the tokens scanned before the opening quote followed
directly by the `EOF` token. -/
theorem unterminatedStringDropsToken (source : String) (k : ℕ) (σ : ScanState)
    (hreach : scanLoop k (initScan source) = σ)
    (hend : ¬ σ.isAtEnd = true)
    (hquote : σ.source.getD σ.current '\x00' = '"')
    (hnoq : ∀ j, σ.current < j → j < σ.source.length → σ.source.getD j '\x00' ≠ '"') :
    ∃ ln, scanTokens source = σ.tokens ++ [⟨.EOF, "", none, ln⟩] ∧
      (scanFinal source).errors = σ.errors ++ [(ln, "Unterminated string.")] := by
  have hsrc : σ.source = source.data := by
    rw [← hreach, scanLoop_source]
    rfl
  have hlt : σ.current < σ.source.length := by
    unfold ScanState.isAtEnd at hend
    simp at hend
    omega
  have hmeas : (initScan source).source.length - (initScan source).current
      = source.data.length := by simp [initScan]
  -- the final scanner state is the continuation of the loop from σ
  have hfin : scanFinal source = scanLoop (source.data.length + 1) σ := by
    unfold scanFinal
    rw [scanLoop_indep (source.data.length + 1) (k + (source.data.length + 1))
        (initScan source) (by omega) (by omega),
      scanLoop_add, hreach]
  -- one loop step consumes the opening quote and enters the string scanner
  have hstep : scanLoop (source.data.length + 1) σ
      = scanLoop source.data.length (scanToken { σ with start := σ.current }) :=
    scanLoop_succ_step _ _ hend
  have hc : ({ σ with start := σ.current } : ScanState).advance.1 = '"' := hquote
  have hscan : scanToken { σ with start := σ.current }
      = scanString ({ σ with start := σ.current } : ScanState).advance.2 := by
    unfold scanToken
    rw [hc]
    rfl
  -- the string loop consumes the rest of the input without emitting anything
  have hnq2 : ∀ j, ({ σ with start := σ.current } : ScanState).advance.2.current ≤ j →
      j < ({ σ with start := σ.current } : ScanState).advance.2.source.length →
      ({ σ with start := σ.current } : ScanState).advance.2.source.getD j '\x00' ≠ '"' := by
    intro j hj1 hj2
    exact hnoq j (by exact hj1) hj2
  have hloop := stringLoop_noQuote
    (({ σ with start := σ.current } : ScanState).advance.2.source.length + 1)
    ({ σ with start := σ.current } : ScanState).advance.2
    (by omega) hnq2
  set S := stringLoop
    (({ σ with start := σ.current } : ScanState).advance.2.source.length + 1)
    ({ σ with start := σ.current } : ScanState).advance.2 with hS
  obtain ⟨hSend, hStok, hSerr, hSsrc, hSstart⟩ := hloop
  -- the string scanner reports the error and adds no token
  have hfinish : scanString ({ σ with start := σ.current } : ScanState).advance.2
      = S.reportError S.line "Unterminated string." := by
    unfold scanString stringFinish
    rw [← hS, if_pos hSend]
  have hend4 : (S.reportError S.line "Unterminated string.").isAtEnd = true := by
    simpa [ScanState.isAtEnd, ScanState.reportError] using hSend
  refine ⟨S.line, ?_, ?_⟩
  · unfold scanTokens
    rw [hfin, hstep, hscan, hfinish, scanLoop_atEnd _ _ hend4]
    simp only [ScanState.reportError]
    rw [hStok]
    rfl
  · rw [hfin, hstep, hscan, hfinish, scanLoop_atEnd _ _ hend4]
    simp only [ScanState.reportError]
    rw [hSerr]
    rfl

/-- C10 witness: scanning `1+"abc` — the state reached after two loop steps
has scanned `NUMBER 1` and `PLUS` and stands on the opening quote; the claim
theorem then yields the final token list `[NUMBER, PLUS, EOF]` with the
"Unterminated string." report. -/
theorem unterminatedStringDropsTokenWitness :
    ∃ ln, scanTokens "1+\"abc" = (scanLoop 2 (initScan "1+\"abc")).tokens
        ++ [⟨.EOF, "", none, ln⟩] ∧
      (scanFinal "1+\"abc").errors = (scanLoop 2 (initScan "1+\"abc")).errors
        ++ [(ln, "Unterminated string.")] :=
  unterminatedStringDropsToken "1+\"abc" 2 (scanLoop 2 (initScan "1+\"abc")) rfl
    (by decide) (by decide)
    (by intro j h1 h2
        have hc2 : (scanLoop 2 (initScan "1+\"abc")).current = 2 := rfl
        have hl2 : (scanLoop 2 (initScan "1+\"abc")).source.length = 6 := rfl
        rw [hc2] at h1
        rw [hl2] at h2
        interval_cases j <;> decide)

/-! ## Environment infrastructure lemmas (for claim C7) -/

theorem lookup_setVar_self (l : List (String × Value)) (k : String) (v : Value) :
    List.lookup k (setVar l k v) = some v := by
  induction l with
  | nil => simp [setVar, List.lookup]
  | cons hd tl ih =>
    obtain ⟨k1, v1⟩ := hd
    unfold setVar
    by_cases h : k1 = k
    · simp [h, List.lookup]
    · simp only [h, if_false, if_neg]
      rw [List.lookup_cons]
      have hb : (k == k1) = false := by
        simp [beq_iff_eq]
        intro he
        exact h he.symm
      simp [hb, ih]

theorem lookup_setVar_ne (l : List (String × Value)) (k k1 : String) (v : Value)
    (h : k1 ≠ k) : List.lookup k1 (setVar l k v) = List.lookup k1 l := by
  induction l with
  | nil =>
    unfold setVar
    rw [List.lookup_cons]
    have hb : (k1 == k) = false := by simp [beq_iff_eq, h]
    simp [hb, List.lookup]
  | cons hd tl ih =>
    obtain ⟨k2, v2⟩ := hd
    unfold setVar
    split
    · rename_i h2
      rw [List.lookup_cons, List.lookup_cons]
      have hne : k1 ≠ k2 := fun he => h (he.trans h2)
      have hb1 : (k1 == k) = false := by simp [beq_iff_eq, h]
      have hb2 : (k1 == k2) = false := by simp [beq_iff_eq, hne]
      simp [hb1, hb2]
    · rw [List.lookup_cons, List.lookup_cons]
      cases hb : (k1 == k2) with
      | true => simp
      | false => simp [ih]

theorem getD_set_self {α : Type} (l : List α) (i : ℕ) (a d : α) (h : i < l.length) :
    (l.set i a).getD i d = a := by
  rw [List.getD_eq_getElem?_getD, List.getElem?_set_self (by omega)]
  rfl

theorem getD_set_ne {α : Type} (l : List α) (i j : ℕ) (a d : α) (h : i ≠ j) :
    (l.set i a).getD j d = l.getD j d := by
  rw [List.getD_eq_getElem?_getD, List.getElem?_set_ne h, ← List.getD_eq_getElem?_getD]

theorem getD_append_lt {α : Type} (l1 l2 : List α) (j : ℕ) (d : α) (h : j < l1.length) :
    (l1 ++ l2).getD j d = l1.getD j d := by
  rw [List.getD_eq_getElem?_getD, List.getElem?_append, if_pos h,
    ← List.getD_eq_getElem?_getD]

theorem getD_append_self {α : Type} (l1 : List α) (F d : α) :
    (l1 ++ [F]).getD l1.length d = F := by
  rw [List.getD_eq_getElem?_getD, List.getElem?_append_right (le_refl _)]
  simp

theorem resolveAux_le (σ : IState) (nm : String) (hwf : wfState σ) :
    ∀ (fuel i t : ℕ), i < σ.frames.length → resolveAux σ fuel i nm = some t →
      t ≤ i ∧ t < σ.frames.length ∧ (List.lookup nm (σ.frame t).vars).isSome = true := by
  intro fuel
  induction fuel with
  | zero => intro i t hi h; simp [resolveAux] at h
  | succ n ih =>
    intro i t hi h
    unfold resolveAux at h
    split at h
    · obtain rfl : i = t := by simpa using h
      refine ⟨le_refl _, hi, by assumption⟩
    · revert h
      split
      · intro h
        rename_i p hp
        have hplt : p < i := hwf.2 i hi p hp
        obtain ⟨h1, h2, h3⟩ := ih p t (by omega) h
        exact ⟨by omega, h2, h3⟩
      · intro h; simp at h

theorem resolveAux_fuel (σ : IState) (nm : String) (hwf : wfState σ) :
    ∀ (i : ℕ), i < σ.frames.length → ∀ f1 f2, i < f1 → i < f2 →
      resolveAux σ f1 i nm = resolveAux σ f2 i nm := by
  intro i
  induction i using Nat.strong_induction_on with
  | _ i ih =>
    intro hi f1 f2 h1 h2
    obtain ⟨g1, rfl⟩ : ∃ g1, f1 = g1 + 1 := ⟨f1 - 1, by omega⟩
    obtain ⟨g2, rfl⟩ : ∃ g2, f2 = g2 + 1 := ⟨f2 - 1, by omega⟩
    unfold resolveAux
    split
    · rfl
    · split
      · rename_i p hp
        have hplt : p < i := hwf.2 i hi p hp
        exact ih p hplt (by omega) g1 g2 (by omega) (by omega)
      · rfl

theorem resolve_found (σ : IState) (i : ℕ) (nm : String)
    (h : (List.lookup nm (σ.frame i).vars).isSome = true) :
    σ.resolve i nm = some i := by
  unfold IState.resolve resolveAux
  simp [h]

theorem resolve_step (σ : IState) (i p : ℕ) (nm : String) (hwf : wfState σ)
    (hi : i < σ.frames.length)
    (hnot : (List.lookup nm (σ.frame i).vars).isSome = false)
    (hp : (σ.frame i).parent = some p) :
    σ.resolve i nm = σ.resolve p nm := by
  have hplt : p < i := hwf.2 i hi p hp
  unfold IState.resolve
  conv_lhs => rw [show i + 1 = i + 1 from rfl]
  unfold resolveAux
  simp only [hnot, Bool.false_eq_true, if_false, if_neg, hp]
  exact resolveAux_fuel σ nm hwf p (by omega) i (p + 1) (by omega) (by omega)

theorem resolve_none (σ : IState) (i : ℕ) (nm : String)
    (hnot : (List.lookup nm (σ.frame i).vars).isSome = false)
    (hp : (σ.frame i).parent = none) :
    σ.resolve i nm = none := by
  unfold IState.resolve resolveAux
  simp [hnot, hp]

theorem resolveAux_congr_low (x : String) (σ σ1 : IState) (hwf : wfState σ)
    (hpar : ∀ i, i < σ.frames.length → (σ1.frame i).parent = (σ.frame i).parent)
    (hpres : ∀ i, i < σ.frames.length → i ≠ σ.cur → hasVarAt σ1 i x = hasVarAt σ i x) :
    ∀ (p : ℕ), p < σ.cur → p < σ.frames.length → ∀ fuel,
      resolveAux σ1 fuel p x = resolveAux σ fuel p x := by
  intro p
  induction p using Nat.strong_induction_on with
  | _ p ih =>
    intro hpc hpl fuel
    cases fuel with
    | zero => rfl
    | succ n =>
      unfold resolveAux
      have hpr : (List.lookup x (σ1.frame p).vars).isSome
          = (List.lookup x (σ.frame p).vars).isSome :=
        hpres p hpl (by omega)
      rw [hpr, hpar p hpl]
      split
      · rfl
      · split
        · rename_i q hq
          have hqlt : q < p := hwf.2 p hpl q hq
          exact ih q hqlt (by omega) (by omega) n
        · rfl

theorem protected_cur_ne (x : String) (f : ℕ) (σ : IState)
    (hfx : hasVarAt σ f x = true) (hp : protectedFrom σ x f) : σ.cur ≠ f := by
  intro he
  apply hp
  rw [he]
  exact resolve_found σ f x hfx

theorem protectedPreserved (x : String) (f : ℕ) (σ σ1 : IState)
    (hwf : wfState σ) (hf : f < σ.frames.length) (hfx : hasVarAt σ f x = true)
    (hsp : statePreserved x f σ σ1) (hp : protectedFrom σ x f) :
    protectedFrom σ1 x f := by
  obtain ⟨hcur, hlen, hpar, hpres, hmono, hval, hwfp⟩ := hsp
  have hcne : σ.cur ≠ f := protected_cur_ne x f σ hfx hp
  unfold protectedFrom
  rw [hcur]
  have hcl : σ.cur < σ.frames.length := hwf.1
  by_cases hcv : hasVarAt σ1 σ.cur x = true
  · rw [resolve_found σ1 σ.cur x hcv]
    simp [hcne]
  · have hcv0 : hasVarAt σ1 σ.cur x = false := by
      cases hb : hasVarAt σ1 σ.cur x
      · rfl
      · exact absurd hb hcv
    have hcvσ : hasVarAt σ σ.cur x = false := by
      cases hb : hasVarAt σ σ.cur x
      · rfl
      · have hm := hmono σ.cur hcl hb
        rw [hcv0] at hm
        exact absurd hm (by decide)
    cases hq : (σ.frame σ.cur).parent with
    | none =>
      rw [resolve_none σ1 σ.cur x hcv0 (by rw [hpar σ.cur hcl, hq])]
      simp
    | some p =>
      have hplt : p < σ.cur := hwf.2 σ.cur hcl p hq
      rw [resolve_step σ1 σ.cur p x (hwfp hwf) (by omega) hcv0
          (by rw [hpar σ.cur hcl, hq])]
      have hστ : σ.resolve σ.cur x = σ.resolve p x :=
        resolve_step σ σ.cur p x hwf hcl hcvσ hq
      unfold IState.resolve
      rw [resolveAux_congr_low x σ σ1 hwf hpar hpres p hplt (by omega) (p + 1)]
      unfold protectedFrom at hp
      rw [hστ] at hp
      exact hp

theorem resolveAux_congr_all (nm : String) (σ σ1 : IState) (hwf : wfState σ)
    (hfr : ∀ i, i < σ.frames.length → σ1.frame i = σ.frame i) :
    ∀ (i : ℕ), i < σ.frames.length → ∀ fuel,
      resolveAux σ1 fuel i nm = resolveAux σ fuel i nm := by
  intro i
  induction i using Nat.strong_induction_on with
  | _ i ih =>
    intro hi fuel
    cases fuel with
    | zero => rfl
    | succ n =>
      unfold resolveAux
      rw [hfr i hi]
      split
      · rfl
      · split
        · rename_i q hq
          have hqlt : q < i := hwf.2 i hi q hq
          exact ih q hqlt (by omega) n
        · rfl

theorem SP_refl (x : String) (f : ℕ) (σ : IState) : statePreserved x f σ σ :=
  ⟨rfl, le_refl _, fun _ _ => rfl, fun _ _ _ => rfl, fun _ _ h => h, rfl, id⟩

theorem SP_trans (x : String) (f : ℕ) (σ σ1 σ2 : IState)
    (h1 : statePreserved x f σ σ1) (h2 : statePreserved x f σ1 σ2) :
    statePreserved x f σ σ2 := by
  obtain ⟨a1, b1, c1, d1, e1, g1, w1⟩ := h1
  obtain ⟨a2, b2, c2, d2, e2, g2, w2⟩ := h2
  refine ⟨a2.trans a1, le_trans b1 b2, ?_, ?_, ?_, g2.trans g1, fun h => w2 (w1 h)⟩
  · intro i hi
    rw [c2 i (by omega), c1 i hi]
  · intro i hi hne
    rw [d2 i (by omega) (by rw [a1]; exact hne), d1 i hi hne]
  · intro i hi hv
    exact e2 i (by omega) (e1 i hi hv)

/-- A state change that leaves the frames and the current environment alone
(`output`, `nextId`, `now`) preserves everything. -/
theorem SP_same_frames (x : String) (f : ℕ) (σ σ1 : IState)
    (hfr : σ1.frames = σ.frames) (hc : σ1.cur = σ.cur) : statePreserved x f σ σ1 := by
  refine ⟨hc, by rw [hfr], ?_, ?_, ?_, ?_, ?_⟩
  · intro i _; unfold IState.frame; rw [hfr]
  · intro i _ _; unfold hasVarAt IState.frame; rw [hfr]
  · intro i _ h; unfold hasVarAt IState.frame at h ⊢; rw [hfr]; exact h
  · unfold IState.frame; rw [hfr]
  · intro h
    constructor
    · rw [hc, hfr]
      exact h.1
    · intro i hi p hp
      rw [hfr] at hi
      unfold IState.frame at hp
      rw [hfr] at hp
      exact h.2 i hi p hp

/-- `Environment.define` on the current environment preserves the outer
binding (the current environment is not the protected frame `f`). -/
theorem SP_define (x : String) (f : ℕ) (σ : IState) (name : String) (v : Value)
    (hwf : wfState σ) (hne : σ.cur ≠ f) :
    statePreserved x f σ (σ.define name v) := by
  have hcl : σ.cur < σ.frames.length := hwf.1
  unfold IState.define
  refine ⟨rfl, by simp, ?_, ?_, ?_, ?_, ?_⟩
  · intro i hi
    unfold IState.frame
    by_cases he : i = σ.cur
    · subst he
      rw [getD_set_self _ _ _ _ (by simpa using hcl)]
    · rw [getD_set_ne _ _ _ _ _ (fun hh => he hh.symm)]
  · intro i hi hne2
    unfold hasVarAt IState.frame
    rw [getD_set_ne _ _ _ _ _ (fun hh => hne2 hh.symm)]
  · intro i hi hv
    unfold hasVarAt IState.frame at hv ⊢
    by_cases he : i = σ.cur
    · subst he
      rw [getD_set_self _ _ _ _ (by simpa using hcl)]
      by_cases hnx : name = x
      · subst hnx
        simp [lookup_setVar_self]
      · simp only []
        rw [lookup_setVar_ne _ _ _ _ (fun hh => hnx hh.symm)]
        exact hv
    · rw [getD_set_ne _ _ _ _ _ (fun hh => he hh.symm)]
      exact hv
  · unfold IState.frame
    rw [getD_set_ne _ _ _ _ _ (fun hh => hne hh)]
  · intro h
    refine ⟨by simpa using h.1, ?_⟩
    intro i hi p hp
    simp only [List.length_set] at hi
    unfold IState.frame at hp
    by_cases he : i = σ.cur
    · subst he
      rw [getD_set_self _ _ _ _ (by simpa using hcl)] at hp
      exact h.2 σ.cur hi p hp
    · rw [getD_set_ne _ _ _ _ _ (fun hh => he hh.symm)] at hp
      exact h.2 i hi p hp

/-- `Environment.assign` preserves the outer binding of `x` when the
assignment does not target `x`, or when the lookup for `x` is protected (the
resolution target can then not be `f`). -/
theorem SP_assign (x : String) (f : ℕ) (σ σ2 : IState) (name : Token) (v : Value)
    (hwf : wfState σ) (h : σ.assignVar name v = Except.ok σ2)
    (hcase : name.lexeme ≠ x ∨ (protectedFrom σ x f ∧ hasVarAt σ f x = true)) :
    statePreserved x f σ σ2 := by
  have hcl : σ.cur < σ.frames.length := hwf.1
  unfold IState.assignVar at h
  cases hres : σ.resolve σ.cur name.lexeme with
  | none => rw [hres] at h; simp at h
  | some t =>
    rw [hres] at h
    simp only [Except.ok.injEq] at h
    subst h
    obtain ⟨hle, htl, hfound⟩ := resolveAux_le σ name.lexeme hwf (σ.cur + 1) σ.cur t hcl hres
    have htf : t ≠ f ∨ name.lexeme ≠ x := by
      by_cases hnx : name.lexeme = x
      · rcases hcase with h2 | ⟨hp, _⟩
        · exact absurd hnx h2
        · left
          intro he
          subst he
          rw [hnx] at hres
          exact hp hres
      · exact Or.inr hnx
    refine ⟨rfl, by simp, ?_, ?_, ?_, ?_, ?_⟩
    · intro i hi
      unfold IState.frame
      by_cases he : i = t
      · subst he
        rw [getD_set_self _ _ _ _ (by simpa using htl)]
      · rw [getD_set_ne _ _ _ _ _ (fun hh => he hh.symm)]
    · intro i hi hne2
      unfold hasVarAt IState.frame
      by_cases he : i = t
      · subst he
        rw [getD_set_self _ _ _ _ (by simpa using htl)]
        simp only []
        by_cases hnx : name.lexeme = x
        · rw [hnx] at hfound ⊢
          rw [lookup_setVar_self]
          unfold IState.frame at hfound
          rw [hfound]
          rfl
        · rw [lookup_setVar_ne _ _ _ _ (fun hh => hnx hh.symm)]
      · rw [getD_set_ne _ _ _ _ _ (fun hh => he hh.symm)]
    · intro i hi hv
      unfold hasVarAt IState.frame at hv ⊢
      by_cases he : i = t
      · subst he
        rw [getD_set_self _ _ _ _ (by simpa using htl)]
        simp only []
        by_cases hnx : name.lexeme = x
        · rw [hnx] at hfound ⊢
          rw [lookup_setVar_self]
          rfl
        · rw [lookup_setVar_ne _ _ _ _ (fun hh => hnx hh.symm)]
          exact hv
      · rw [getD_set_ne _ _ _ _ _ (fun hh => he hh.symm)]
        exact hv
    · unfold IState.frame
      by_cases he : f = t
      · subst he
        rcases htf with h2 | h2
        · exact absurd rfl h2
        · rw [getD_set_self _ _ _ _ (by simpa using htl)]
          simp only []
          rw [lookup_setVar_ne _ _ _ _ (fun hh => h2 hh.symm)]
      · rw [getD_set_ne _ _ _ _ _ (fun hh => he hh.symm)]
    · intro hw
      refine ⟨by simpa using hw.1, ?_⟩
      intro i hi p hp
      simp only [List.length_set] at hi
      unfold IState.frame at hp
      by_cases he : i = t
      · subst he
        rw [getD_set_self _ _ _ _ (by simpa using htl)] at hp
        exact hw.2 i hi p hp
      · rw [getD_set_ne _ _ _ _ _ (fun hh => he hh.symm)] at hp
        exact hw.2 i hi p hp

/-- Pushing a fresh child environment keeps the arena well-formed. -/
theorem wf_push (σ : IState) (hwf : wfState σ) (vs : List (String × Value)) :
    wfState { σ with frames := σ.frames ++ [⟨some σ.cur, vs⟩],
                     cur := σ.frames.length } := by
  refine ⟨by simp, ?_⟩
  intro i hi p hp
  simp only [List.length_append, List.length_cons, List.length_nil] at hi
  unfold IState.frame at hp
  by_cases he : i < σ.frames.length
  · rw [getD_append_lt _ _ _ _ he] at hp
    exact hwf.2 i he p hp
  · have he2 : i = σ.frames.length := by omega
    subst he2
    rw [getD_append_self] at hp
    simp only [Frame.mk.injEq, Option.some.injEq] at hp
    have := hwf.1
    omega

/-- Entering a block pushes a fresh empty child of the current environment;
the lookup protection for `x` transfers to the child. -/
theorem protected_push (x : String) (f : ℕ) (σ : IState) (hwf : wfState σ)
    (hp : protectedFrom σ x f) :
    protectedFrom { σ with frames := σ.frames ++ [⟨some σ.cur, []⟩],
                           cur := σ.frames.length } x f := by
  have hcl : σ.cur < σ.frames.length := hwf.1
  set σp : IState := { σ with frames := σ.frames ++ [⟨some σ.cur, []⟩],
                              cur := σ.frames.length } with hσp
  have hwfp : wfState σp := wf_push σ hwf []
  have hfr : ∀ i, i < σ.frames.length → σp.frame i = σ.frame i := by
    intro i hi
    unfold IState.frame
    rw [hσp]
    simp only []
    rw [getD_append_lt _ _ _ _ hi]
  have hnew : σp.frame σ.frames.length = ⟨some σ.cur, []⟩ := by
    unfold IState.frame
    rw [hσp]
    simp only []
    rw [getD_append_self]
  unfold protectedFrom
  have hcur : σp.cur = σ.frames.length := rfl
  rw [hcur]
  rw [resolve_step σp σ.frames.length σ.cur x hwfp
      (by rw [hσp]; simp) (by rw [hnew]; rfl) (by rw [hnew])]
  unfold IState.resolve
  rw [resolveAux_congr_all x σ σp hwf hfr σ.cur hcl (σ.cur + 1)]
  exact hp

/-- Chain the state facts needed to keep applying the preservation argument
after one sub-step. -/
theorem guardAfter (x : String) (f : ℕ) (σ σa : IState)
    (hwf : wfState σ) (hf : f < σ.frames.length) (hfx : hasVarAt σ f x = true)
    (hsp : statePreserved x f σ σa) :
    wfState σa ∧ f < σa.frames.length ∧ hasVarAt σa f x = true ∧ σa.cur = σ.cur ∧
      (protectedFrom σ x f → protectedFrom σa x f) := by
  obtain ⟨a, b, c, d, e, g, w⟩ := hsp
  exact ⟨w hwf, by omega, e f hf hfx, a,
    fun hp => protectedPreserved x f σ σa hwf hf hfx ⟨a, b, c, d, e, g, w⟩ hp⟩

/-- Exiting a block: compose the push, the body execution and the
environment restore into one `statePreserved` step. -/
theorem SP_block (x : String) (f : ℕ) (σ σq : IState) (hwf : wfState σ)
    (hf : f < σ.frames.length)
    (hsp : statePreserved x f
      { σ with frames := σ.frames ++ [⟨some σ.cur, []⟩], cur := σ.frames.length } σq) :
    statePreserved x f σ { σq with cur := σ.cur } := by
  have hcl : σ.cur < σ.frames.length := hwf.1
  set σp : IState := { σ with frames := σ.frames ++ [⟨some σ.cur, []⟩],
                              cur := σ.frames.length } with hσp
  obtain ⟨a1, b1, c1, d1, e1, g1, w1⟩ := hsp
  have hlenp : σp.frames.length = σ.frames.length + 1 := by rw [hσp]; simp
  have hfr : ∀ i, i < σ.frames.length → σp.frame i = σ.frame i := by
    intro i hi
    unfold IState.frame
    rw [hσp]
    simp only []
    rw [getD_append_lt _ _ _ _ hi]
  refine ⟨rfl, by show σ.frames.length ≤ σq.frames.length; omega, ?_, ?_, ?_, ?_, ?_⟩
  · intro i hi
    show (σq.frame i).parent = (σ.frame i).parent
    have := c1 i (by omega)
    rw [hfr i hi] at this
    exact this
  · intro i hi hne
    show hasVarAt σq i x = hasVarAt σ i x
    have := d1 i (by omega) (by rw [hσp]; simp only []; omega)
    unfold hasVarAt at this ⊢
    rw [hfr i hi] at this
    exact this
  · intro i hi hv
    show hasVarAt σq i x = true
    have hvp : hasVarAt σp i x = true := by
      unfold hasVarAt
      rw [hfr i hi]
      exact hv
    exact e1 i (by omega) hvp
  · show List.lookup x (σq.frame f).vars = List.lookup x (σ.frame f).vars
    rw [g1, hfr f hf]
  · intro h
    have hwq := w1 (wf_push σ h [])
    constructor
    · show σ.cur < σq.frames.length
      omega
    · intro i hi p hp
      exact hwq.2 i hi p hp

/-- The preservation induction for claim C7: as long as the executed code
contains no call expression, and either the lookup for `x` from the current
environment is shadowed away from frame `f` or the code contains no
assignment to `x` (with the current environment not being `f`), execution
leaves the binding of `x` in frame `f` — and the whole frame discipline —
intact, on every outcome. -/
theorem runPreserves (x : String) (f : ℕ) :
    ∀ (n : ℕ) (task : Task) (σ : IState) (res : TRes) (σ1 : IState),
      run1 n task σ = some (res, σ1) →
      wfState σ → f < σ.frames.length → hasVarAt σ f x = true →
      taskCallFree task = true →
      (protectedFrom σ x f ∨ (taskNoAssign x task = true ∧ σ.cur ≠ f)) →
      statePreserved x f σ σ1 := by
  intro n
  induction n with
  | zero =>
    intro task σ res σ1 hrun
    simp [run1] at hrun
  | succ n ih =>
    intro task σ res σ1 hrun hwf hf hfx hcf hg
    have hcne : σ.cur ≠ f := by
      rcases hg with hp | ⟨_, h2⟩
      · exact protected_cur_ne x f σ hfx hp
      · exact h2
    cases task with
    | tCall cv args paren => simp [taskCallFree] at hcf
    | tExpr e =>
      cases e with
      | call c p args => simp [taskCallFree, exprCallFree] at hcf
      | literal v =>
        simp only [run1, Option.some.injEq, Prod.mk.injEq] at hrun
        obtain ⟨-, rfl⟩ := hrun
        exact SP_refl x f σ
      | grouping inner =>
        simp only [run1] at hrun
        simp only [taskCallFree, exprCallFree] at hcf
        refine ih _ _ _ _ hrun hwf hf hfx hcf ?_
        rcases hg with hp | ⟨hna, h2⟩
        · exact Or.inl hp
        · exact Or.inr ⟨by simpa [taskNoAssign, exprNoAssign] using hna, h2⟩
      | unary op right =>
        simp only [run1] at hrun
        simp only [taskCallFree, exprCallFree] at hcf
        have hg1 : protectedFrom σ x f ∨ (taskNoAssign x (.tExpr right) = true ∧ σ.cur ≠ f) := by
          rcases hg with hp | ⟨hna, h2⟩
          · exact Or.inl hp
          · exact Or.inr ⟨by simpa [taskNoAssign, exprNoAssign] using hna, h2⟩
        split at hrun
        · rename_i hs1
          have hspa := ih _ _ _ _ hs1 hwf hf hfx hcf hg1
          split at hrun <;>
            (simp only [Option.some.injEq, Prod.mk.injEq] at hrun
             obtain ⟨-, rfl⟩ := hrun
             exact hspa)
        · first
            | (exact ih _ _ _ _ hrun hwf hf hfx hcf hg1)
            | simp at hrun
      | binary l op r2 =>
        simp only [run1] at hrun
        simp only [taskCallFree, exprCallFree, Bool.and_eq_true] at hcf
        have hg1 : protectedFrom σ x f ∨ (taskNoAssign x (.tExpr l) = true ∧ σ.cur ≠ f) := by
          rcases hg with hp | ⟨hna, h2⟩
          · exact Or.inl hp
          · simp only [taskNoAssign, exprNoAssign, Bool.and_eq_true] at hna
            exact Or.inr ⟨hna.1, h2⟩
        split at hrun
        · rename_i rva σa hs1
          have hspa := ih _ _ _ _ hs1 hwf hf hfx hcf.1 hg1
          obtain ⟨hwfa, hfa, hfxa, hcura, hprot⟩ := guardAfter x f σ _ hwf hf hfx hspa
          have hg2 : protectedFrom σa x f ∨ (taskNoAssign x (.tExpr r2) = true ∧ σa.cur ≠ f) := by
            rcases hg with hp | ⟨hna, h2⟩
            · exact Or.inl (hprot hp)
            · simp only [taskNoAssign, exprNoAssign, Bool.and_eq_true] at hna
              exact Or.inr ⟨hna.2, by rw [hcura]; exact h2⟩
          split at hrun
          · rename_i hs2
            have hspb := ih _ _ _ _ hs2 hwfa hfa hfxa hcf.2 hg2
            split at hrun <;>
              (simp only [Option.some.injEq, Prod.mk.injEq] at hrun
               obtain ⟨-, rfl⟩ := hrun
               exact SP_trans x f σ _ _ hspa hspb)
          · first
              | (exact SP_trans x f σ _ σ1 hspa
                  (ih _ _ _ _ hrun hwfa hfa hfxa hcf.2 hg2))
              | simp at hrun
        · first
            | (exact ih _ _ _ _ hrun hwf hf hfx hcf.1 hg1)
            | simp at hrun
      | ternary c t e2 =>
        simp only [run1] at hrun
        simp only [taskCallFree, exprCallFree, Bool.and_eq_true] at hcf
        have hg1 : protectedFrom σ x f ∨ (taskNoAssign x (.tExpr c) = true ∧ σ.cur ≠ f) := by
          rcases hg with hp | ⟨hna, h2⟩
          · exact Or.inl hp
          · simp only [taskNoAssign, exprNoAssign, Bool.and_eq_true] at hna
            exact Or.inr ⟨hna.1.1, h2⟩
        split at hrun
        · rename_i hs1
          have hspa := ih _ _ _ _ hs1 hwf hf hfx hcf.1.1 hg1
          obtain ⟨hwfa, hfa, hfxa, hcura, hprot⟩ := guardAfter x f σ _ hwf hf hfx hspa
          split at hrun
          · refine SP_trans x f σ _ σ1 hspa (ih _ _ _ _ hrun hwfa hfa hfxa hcf.1.2 ?_)
            rcases hg with hp | ⟨hna, h2⟩
            · exact Or.inl (hprot hp)
            · simp only [taskNoAssign, exprNoAssign, Bool.and_eq_true] at hna
              exact Or.inr ⟨hna.1.2, by rw [hcura]; exact h2⟩
          · refine SP_trans x f σ _ σ1 hspa (ih _ _ _ _ hrun hwfa hfa hfxa hcf.2 ?_)
            rcases hg with hp | ⟨hna, h2⟩
            · exact Or.inl (hprot hp)
            · simp only [taskNoAssign, exprNoAssign, Bool.and_eq_true] at hna
              exact Or.inr ⟨hna.2, by rw [hcura]; exact h2⟩
        · first
            | (exact ih _ _ _ _ hrun hwf hf hfx hcf.1.1 hg1)
            | simp at hrun
      | «variable» name =>
        simp only [run1] at hrun
        split at hrun <;>
          (simp only [Option.some.injEq, Prod.mk.injEq] at hrun
           obtain ⟨-, rfl⟩ := hrun
           exact SP_refl x f σ)
      | assign name value =>
        simp only [run1] at hrun
        simp only [taskCallFree, exprCallFree] at hcf
        have hg1 : protectedFrom σ x f ∨ (taskNoAssign x (.tExpr value) = true ∧ σ.cur ≠ f) := by
          rcases hg with hp | ⟨hna, h2⟩
          · exact Or.inl hp
          · simp only [taskNoAssign, exprNoAssign, Bool.and_eq_true] at hna
            exact Or.inr ⟨hna.2, h2⟩
        split at hrun
        · rename_i rva σa hs1
          have hspa := ih _ _ _ _ hs1 hwf hf hfx hcf hg1
          obtain ⟨hwfa, hfa, hfxa, hcura, hprot⟩ := guardAfter x f σ _ hwf hf hfx hspa
          have hcase : name.lexeme ≠ x ∨ (protectedFrom σa x f ∧ hasVarAt σa f x = true) := by
            rcases hg with hp | ⟨hna, h2⟩
            · exact Or.inr ⟨hprot hp, hfxa⟩
            · simp only [taskNoAssign, exprNoAssign, Bool.and_eq_true,
                decide_eq_true_eq] at hna
              exact Or.inl hna.1
          split at hrun
          · rename_i hs2
            simp only [Option.some.injEq, Prod.mk.injEq] at hrun
            obtain ⟨-, rfl⟩ := hrun
            exact SP_trans x f σ _ _ hspa (SP_assign x f _ _ name _ hwfa hs2 hcase)
          · simp only [Option.some.injEq, Prod.mk.injEq] at hrun
            obtain ⟨-, rfl⟩ := hrun
            exact hspa
        · first
            | (exact ih _ _ _ _ hrun hwf hf hfx hcf hg1)
            | simp at hrun
    | tArgs es =>
      cases es with
      | nil =>
        simp only [run1, Option.some.injEq, Prod.mk.injEq] at hrun
        obtain ⟨-, rfl⟩ := hrun
        exact SP_refl x f σ
      | cons e rest =>
        simp only [run1] at hrun
        simp only [taskCallFree, exprsCallFree, List.all_cons, Bool.and_eq_true] at hcf
        have hg1 : protectedFrom σ x f ∨ (taskNoAssign x (.tExpr e) = true ∧ σ.cur ≠ f) := by
          rcases hg with hp | ⟨hna, h2⟩
          · exact Or.inl hp
          · simp only [taskNoAssign, exprsNoAssign, Bool.and_eq_true] at hna
            exact Or.inr ⟨hna.1, h2⟩
        have hcfr : taskCallFree (.tArgs rest) = true := by
          simp only [taskCallFree, exprsCallFree]
          exact hcf.2
        split at hrun
        · rename_i va σa hs1
          have hspa := ih _ _ _ _ hs1 hwf hf hfx hcf.1 hg1
          obtain ⟨hwfa, hfa, hfxa, hcura, hprot⟩ := guardAfter x f σ _ hwf hf hfx hspa
          have hg2 : protectedFrom σa x f ∨ (taskNoAssign x (.tArgs rest) = true ∧ σa.cur ≠ f) := by
            rcases hg with hp | ⟨hna, h2⟩
            · exact Or.inl (hprot hp)
            · simp only [taskNoAssign, exprsNoAssign, Bool.and_eq_true] at hna
              exact Or.inr ⟨hna.2, by rw [hcura]; exact h2⟩
          split at hrun
          · rename_i hs2
            have hspb := ih _ _ _ _ hs2 hwfa hfa hfxa hcfr hg2
            simp only [Option.some.injEq, Prod.mk.injEq] at hrun
            obtain ⟨-, rfl⟩ := hrun
            exact SP_trans x f σ _ _ hspa hspb
          · first
              | (exact SP_trans x f σ _ σ1 hspa
                  (ih _ _ _ _ hrun hwfa hfa hfxa hcfr hg2))
              | simp at hrun
        all_goals
          first
            | (rename_i hs1
               have hspa := ih _ _ _ _ hs1 hwf hf hfx hcf.1 hg1
               simp only [Option.some.injEq, Prod.mk.injEq] at hrun
               obtain ⟨-, rfl⟩ := hrun
               exact hspa)
            | simp at hrun
    | tStmts ss =>
      cases ss with
      | nil =>
        simp only [run1, Option.some.injEq, Prod.mk.injEq] at hrun
        obtain ⟨-, rfl⟩ := hrun
        exact SP_refl x f σ
      | cons s rest =>
        simp only [run1] at hrun
        simp only [taskCallFree, stmtsCallFree, Bool.and_eq_true] at hcf
        have hg1 : protectedFrom σ x f ∨ (taskNoAssign x (.tStmt s) = true ∧ σ.cur ≠ f) := by
          rcases hg with hp | ⟨hna, h2⟩
          · exact Or.inl hp
          · simp only [taskNoAssign, stmtsNoAssign, Bool.and_eq_true] at hna
            exact Or.inr ⟨hna.1, h2⟩
        have hcfr : taskCallFree (.tStmts rest) = true := by
          simp only [taskCallFree]
          exact hcf.2
        split at hrun
        · rename_i σa hs1
          have hspa := ih _ _ _ _ hs1 hwf hf hfx hcf.1 hg1
          obtain ⟨hwfa, hfa, hfxa, hcura, hprot⟩ := guardAfter x f σ _ hwf hf hfx hspa
          have hg2 : protectedFrom σa x f ∨ (taskNoAssign x (.tStmts rest) = true ∧ σa.cur ≠ f) := by
            rcases hg with hp | ⟨hna, h2⟩
            · exact Or.inl (hprot hp)
            · simp only [taskNoAssign, stmtsNoAssign, Bool.and_eq_true] at hna
              exact Or.inr ⟨hna.2, by rw [hcura]; exact h2⟩
          exact SP_trans x f σ _ σ1 hspa (ih _ _ _ _ hrun hwfa hfa hfxa hcfr hg2)
        · first
            | (exact ih _ _ _ _ hrun hwf hf hfx hcf.1 hg1)
            | simp at hrun
    | tStmt s =>
      cases s with
      | sBreak =>
        simp only [run1, Option.some.injEq, Prod.mk.injEq] at hrun
        obtain ⟨-, rfl⟩ := hrun
        exact SP_refl x f σ
      | sExpression e =>
        simp only [run1] at hrun
        simp only [taskCallFree, stmtCallFree] at hcf
        have hg1 : protectedFrom σ x f ∨ (taskNoAssign x (.tExpr e) = true ∧ σ.cur ≠ f) := by
          rcases hg with hp | ⟨hna, h2⟩
          · exact Or.inl hp
          · exact Or.inr ⟨by simpa [taskNoAssign, stmtNoAssign] using hna, h2⟩
        split at hrun <;>
          first
            | (rename_i hs1
               have hspa := ih _ _ _ _ hs1 hwf hf hfx hcf hg1
               simp only [Option.some.injEq, Prod.mk.injEq] at hrun
               obtain ⟨-, rfl⟩ := hrun
               exact hspa)
            | simp at hrun
      | sPrint e =>
        simp only [run1] at hrun
        simp only [taskCallFree, stmtCallFree] at hcf
        have hg1 : protectedFrom σ x f ∨ (taskNoAssign x (.tExpr e) = true ∧ σ.cur ≠ f) := by
          rcases hg with hp | ⟨hna, h2⟩
          · exact Or.inl hp
          · exact Or.inr ⟨by simpa [taskNoAssign, stmtNoAssign] using hna, h2⟩
        split at hrun <;>
          first
            | (rename_i hs1
               have hspa := ih _ _ _ _ hs1 hwf hf hfx hcf hg1
               simp only [Option.some.injEq, Prod.mk.injEq] at hrun
               obtain ⟨-, rfl⟩ := hrun
               first
                 | exact hspa
                 | exact SP_trans x f σ _ _ hspa (SP_same_frames x f _ _ rfl rfl))
            | simp at hrun
      | sVar name init =>
        simp only [taskCallFree, stmtCallFree] at hcf
        cases init with
        | none =>
          simp only [run1, Option.some.injEq, Prod.mk.injEq] at hrun
          obtain ⟨-, rfl⟩ := hrun
          exact SP_define x f σ name.lexeme .vnil hwf hcne
        | some e =>
          simp only [run1] at hrun
          have hg1 : protectedFrom σ x f ∨ (taskNoAssign x (.tExpr e) = true ∧ σ.cur ≠ f) := by
            rcases hg with hp | ⟨hna, h2⟩
            · exact Or.inl hp
            · exact Or.inr ⟨by simpa [taskNoAssign, stmtNoAssign] using hna, h2⟩
          have hcfe : taskCallFree (.tExpr e) = true := by
            simpa [taskCallFree, stmtCallFree] using hcf
          split at hrun <;>
            first
              | (rename_i hs1
                 have hspa := ih _ _ _ _ hs1 hwf hf hfx hcfe hg1
                 obtain ⟨hwfa, hfa, hfxa, hcura, hprot⟩ :=
                   guardAfter x f σ _ hwf hf hfx hspa
                 simp only [Option.some.injEq, Prod.mk.injEq] at hrun
                 obtain ⟨-, rfl⟩ := hrun
                 first
                   | exact hspa
                   | exact SP_trans x f σ _ _ hspa
                       (SP_define x f _ name.lexeme _ hwfa (by rw [hcura]; exact hcne)))
              | simp at hrun
      | sBlock stmts =>
        simp only [run1] at hrun
        split at hrun
        · rename_i hs1
          simp only [Option.some.injEq, Prod.mk.injEq] at hrun
          obtain ⟨-, rfl⟩ := hrun
          have hwfp := wf_push σ hwf []
          have hfp : f < (σ.frames ++ [(⟨some σ.cur, []⟩ : Frame)]).length := by
            simp only [List.length_append, List.length_cons, List.length_nil]
            omega
          have hfxp : hasVarAt { σ with frames := σ.frames ++ [⟨some σ.cur, []⟩], cur := σ.frames.length } f x = true := by
            unfold hasVarAt IState.frame
            simp only []
            rw [getD_append_lt _ _ _ _ hf]
            exact hfx
          have hcfp : taskCallFree (.tStmts stmts) = true := by
            simpa [taskCallFree, stmtCallFree] using hcf
          have hgp : protectedFrom { σ with frames := σ.frames ++ [⟨some σ.cur, []⟩], cur := σ.frames.length } x f ∨
              (taskNoAssign x (.tStmts stmts) = true ∧
                ({ σ with frames := σ.frames ++ [⟨some σ.cur, []⟩], cur := σ.frames.length } : IState).cur ≠ f) := by
            rcases hg with hp | ⟨hna, h2⟩
            · exact Or.inl (protected_push x f σ hwf hp)
            · refine Or.inr ⟨by simpa [taskNoAssign, stmtNoAssign] using hna, ?_⟩
              show σ.frames.length ≠ f
              omega
          have hspq := ih _ _ _ _ hs1 hwfp hfp hfxp hcfp hgp
          exact SP_block x f σ _ hwf hf hspq
        · simp at hrun
      | sIf c t els =>
        simp only [run1] at hrun
        have hcfc : taskCallFree (.tExpr c) = true := by
          cases els <;>
            (simp only [taskCallFree, stmtCallFree, Bool.and_eq_true] at hcf
             simp only [taskCallFree]
             first
               | exact hcf.1
               | exact hcf.1.1)
        have hg1 : protectedFrom σ x f ∨ (taskNoAssign x (.tExpr c) = true ∧ σ.cur ≠ f) := by
          rcases hg with hp | ⟨hna, h2⟩
          · exact Or.inl hp
          · cases els <;>
              (simp only [taskNoAssign, stmtNoAssign, Bool.and_eq_true] at hna
               first
                 | exact Or.inr ⟨hna.1, h2⟩
                 | exact Or.inr ⟨hna.1.1, h2⟩)
        split at hrun
        · rename_i hs1
          have hspa := ih _ _ _ _ hs1 hwf hf hfx hcfc hg1
          obtain ⟨hwfa, hfa, hfxa, hcura, hprot⟩ := guardAfter x f σ _ hwf hf hfx hspa
          split at hrun
          · refine SP_trans x f σ _ σ1 hspa (ih _ _ _ _ hrun hwfa hfa hfxa ?_ ?_)
            · cases els <;>
                (simp only [taskCallFree, stmtCallFree, Bool.and_eq_true] at hcf
                 simp only [taskCallFree]
                 first
                   | exact hcf.2
                   | exact hcf.1.2)
            · rcases hg with hp | ⟨hna, h2⟩
              · exact Or.inl (hprot hp)
              · right
                refine ⟨?_, by rw [hcura]; exact h2⟩
                cases els <;>
                  (simp only [taskNoAssign, stmtNoAssign, Bool.and_eq_true] at hna ⊢
                   first
                     | exact hna.2
                     | exact hna.1.2)
          · split at hrun
            · refine SP_trans x f σ _ σ1 hspa (ih _ _ _ _ hrun hwfa hfa hfxa ?_ ?_)
              · simp only [taskCallFree, stmtCallFree, Bool.and_eq_true] at hcf
                simp only [taskCallFree]
                exact hcf.2
              · rcases hg with hp | ⟨hna, h2⟩
                · exact Or.inl (hprot hp)
                · right
                  refine ⟨?_, by rw [hcura]; exact h2⟩
                  simp only [taskNoAssign, stmtNoAssign, Bool.and_eq_true] at hna ⊢
                  exact hna.2
            · simp only [Option.some.injEq, Prod.mk.injEq] at hrun
              obtain ⟨-, rfl⟩ := hrun
              exact hspa
        all_goals
          first
            | (rename_i hs1
               have hspa := ih _ _ _ _ hs1 hwf hf hfx hcfc hg1
               simp only [Option.some.injEq, Prod.mk.injEq] at hrun
               obtain ⟨-, rfl⟩ := hrun
               exact hspa)
            | simp at hrun
      | sWhile c body =>
        simp only [run1] at hrun
        simp only [taskCallFree, stmtCallFree, Bool.and_eq_true] at hcf
        have hcfc : taskCallFree (.tExpr c) = true := by
          simp only [taskCallFree]
          exact hcf.1
        have hcfb : taskCallFree (.tStmt body) = true := by
          simp only [taskCallFree]
          exact hcf.2
        have hcfw : taskCallFree (.tStmt (.sWhile c body)) = true := by
          simp only [taskCallFree, stmtCallFree, Bool.and_eq_true]
          exact hcf
        have hg1 : protectedFrom σ x f ∨ (taskNoAssign x (.tExpr c) = true ∧ σ.cur ≠ f) := by
          rcases hg with hp | ⟨hna, h2⟩
          · exact Or.inl hp
          · simp only [taskNoAssign, stmtNoAssign, Bool.and_eq_true] at hna
            exact Or.inr ⟨hna.1, h2⟩
        split at hrun
        · rename_i cva σa hs1
          have hspa := ih _ _ _ _ hs1 hwf hf hfx hcfc hg1
          obtain ⟨hwfa, hfa, hfxa, hcura, hprot⟩ := guardAfter x f σ _ hwf hf hfx hspa
          have hgb : protectedFrom σa x f ∨ (taskNoAssign x (.tStmt body) = true ∧ σa.cur ≠ f) := by
            rcases hg with hp | ⟨hna, h2⟩
            · exact Or.inl (hprot hp)
            · simp only [taskNoAssign, stmtNoAssign, Bool.and_eq_true] at hna
              exact Or.inr ⟨hna.2, by rw [hcura]; exact h2⟩
          split at hrun
          · split at hrun
            · rename_i σb hs2
              have hspb := ih _ _ _ _ hs2 hwfa hfa hfxa hcfb hgb
              obtain ⟨hwfb, hfb, hfxb, hcurb, hprotb⟩ :=
                guardAfter x f _ _ hwfa hfa hfxa hspb
              have hgw : protectedFrom σb x f ∨
                  (taskNoAssign x (.tStmt (.sWhile c body)) = true ∧ σb.cur ≠ f) := by
                rcases hg with hp | ⟨hna, h2⟩
                · exact Or.inl (hprotb (hprot hp))
                · exact Or.inr ⟨hna, by rw [hcurb, hcura]; exact h2⟩
              exact SP_trans x f σ _ σ1 hspa (SP_trans x f _ _ σ1 hspb
                (ih _ _ _ _ hrun hwfb hfb hfxb hcfw hgw))
            all_goals
              first
                | (rename_i hs2
                   have hspb := ih _ _ _ _ hs2 hwfa hfa hfxa hcfb hgb
                   simp only [Option.some.injEq, Prod.mk.injEq] at hrun
                   obtain ⟨-, rfl⟩ := hrun
                   exact SP_trans x f σ _ _ hspa hspb)
                | (exact SP_trans x f σ _ σ1 hspa
                    (ih _ _ _ _ hrun hwfa hfa hfxa hcfb hgb))
                | simp at hrun
          · simp only [Option.some.injEq, Prod.mk.injEq] at hrun
            obtain ⟨-, rfl⟩ := hrun
            exact hspa
        all_goals
          first
            | (rename_i hs1
               have hspa := ih _ _ _ _ hs1 hwf hf hfx hcfc hg1
               simp only [Option.some.injEq, Prod.mk.injEq] at hrun
               obtain ⟨-, rfl⟩ := hrun
               exact hspa)
            | simp at hrun
      | sFunction name params body =>
        simp only [run1, Option.some.injEq, Prod.mk.injEq] at hrun
        obtain ⟨-, rfl⟩ := hrun
        refine SP_trans x f σ { σ with nextId := σ.nextId + 1 } _
          (SP_same_frames x f σ _ rfl rfl) ?_
        exact SP_define x f { σ with nextId := σ.nextId + 1 } name.lexeme _
          ⟨hwf.1, hwf.2⟩ hcne
      | sReturn kw value =>
        simp only [taskCallFree, stmtCallFree] at hcf
        cases value with
        | none =>
          simp only [run1, Option.some.injEq, Prod.mk.injEq] at hrun
          obtain ⟨-, rfl⟩ := hrun
          exact SP_refl x f σ
        | some e =>
          simp only [run1] at hrun
          have hg1 : protectedFrom σ x f ∨ (taskNoAssign x (.tExpr e) = true ∧ σ.cur ≠ f) := by
            rcases hg with hp | ⟨hna, h2⟩
            · exact Or.inl hp
            · exact Or.inr ⟨by simpa [taskNoAssign, stmtNoAssign] using hna, h2⟩
          have hcfe : taskCallFree (.tExpr e) = true := by
            simpa [taskCallFree, stmtCallFree] using hcf
          split at hrun <;>
            first
              | (rename_i hs1
                 have hspa := ih _ _ _ _ hs1 hwf hf hfx hcfe hg1
                 simp only [Option.some.injEq, Prod.mk.injEq] at hrun
                 obtain ⟨-, rfl⟩ := hrun
                 exact hspa)
              | simp at hrun

/-- A call-free expression task always produces an `rEval` result (the
impossible catch-all arms of `run1` never fire for it). -/
theorem run1_tExpr_shape :
    ∀ (n : ℕ) (e : Expr) (σ : IState) (r : TRes) (σ1 : IState),
      run1 n (.tExpr e) σ = some (r, σ1) → exprCallFree e = true →
      ∃ o, r = TRes.rEval o := by
  intro n
  induction n with
  | zero => intro e σ r σ1 h _; simp [run1] at h
  | succ n ih =>
    intro e σ r σ1 h hcf
    cases e with
    | literal v =>
      simp only [run1, Option.some.injEq, Prod.mk.injEq] at h
      exact ⟨_, h.1.symm⟩
    | grouping inner =>
      simp only [run1] at h
      exact ih _ _ _ _ h hcf
    | unary op right =>
      simp only [run1] at h
      split at h
      · split at h <;>
          (simp only [Option.some.injEq, Prod.mk.injEq] at h
           exact ⟨_, h.1.symm⟩)
      · exact ih _ _ _ _ h hcf
    | binary l op r2 =>
      simp only [run1] at h
      simp only [exprCallFree, Bool.and_eq_true] at hcf
      split at h
      · split at h
        · split at h <;>
            (simp only [Option.some.injEq, Prod.mk.injEq] at h
             exact ⟨_, h.1.symm⟩)
        · exact ih _ _ _ _ h hcf.2
      · exact ih _ _ _ _ h hcf.1
    | ternary c t e2 =>
      simp only [run1] at h
      simp only [exprCallFree, Bool.and_eq_true] at hcf
      split at h
      · split at h
        · exact ih _ _ _ _ h hcf.1.2
        · exact ih _ _ _ _ h hcf.2
      · exact ih _ _ _ _ h hcf.1.1
    | «variable» name =>
      simp only [run1] at h
      split at h <;>
        (simp only [Option.some.injEq, Prod.mk.injEq] at h
         exact ⟨_, h.1.symm⟩)
    | assign name value =>
      simp only [run1] at h
      split at h
      · split at h <;>
          (simp only [Option.some.injEq, Prod.mk.injEq] at h
           exact ⟨_, h.1.symm⟩)
      · exact ih _ _ _ _ h hcf
    | call c p args => simp [exprCallFree] at hcf

/-- A `var` declaration that completes normally leaves a binding for the
declared name in the current environment (`Environment.define` binds in this
scope). -/
theorem sVar_normal_hasVar (n : ℕ) (name : Token) (init : Option Expr) (σ σa : IState)
    (h : run1 n (.tStmt (.sVar name init)) σ = some (.rExec .normal, σa))
    (hcf : stmtCallFree (.sVar name init) = true)
    (hwfa : wfState σa) :
    hasVarAt σa σa.cur name.lexeme = true := by
  cases n with
  | zero => simp [run1] at h
  | succ n =>
    cases init with
    | none =>
      simp only [run1, Option.some.injEq, Prod.mk.injEq] at h
      obtain ⟨-, rfl⟩ := h
      have hlt : σ.cur < σ.frames.length := by
        have h1 := hwfa.1
        simpa [IState.define, List.length_set] using h1
      simp only [hasVarAt, IState.define, IState.frame]
      rw [getD_set_self _ _ _ _ hlt]
      simp [lookup_setVar_self]
    | some e =>
      simp only [run1] at h
      split at h
      · rename_i v σe hs1
        simp only [Option.some.injEq, Prod.mk.injEq] at h
        obtain ⟨-, rfl⟩ := h
        have hlt : σe.cur < σe.frames.length := by
          have h1 := hwfa.1
          simpa [IState.define, List.length_set] using h1
        simp only [hasVarAt, IState.define, IState.frame]
        rw [getD_set_self _ _ _ _ hlt]
        simp [lookup_setVar_self]
      · simp at h
      · simp at h
      · rename_i hs1
        obtain ⟨o, rfl⟩ := run1_tExpr_shape n e σ _ _ hs1 hcf
        simp at h
      · simp at h

/-- The preservation induction for the statement list of claim C7's block:
under the shadow discipline the statements before the `var x` declaration
assign nothing to `x`, and from the declaration on the lookup for `x` is
shadowed by the fresh binding, so the binding of `x` in frame `f` survives
the whole list, on every outcome. -/
theorem stmtsPreserve (x : String) (f : ℕ) :
    ∀ (n : ℕ) (ss : List Stmt) (σ : IState) (res : TRes) (σ1 : IState),
      run1 n (.tStmts ss) σ = some (res, σ1) →
      wfState σ → f < σ.frames.length → hasVarAt σ f x = true →
      stmtsCallFree ss = true → σ.cur ≠ f → shadowList x ss = true →
      statePreserved x f σ σ1 := by
  intro n
  induction n with
  | zero => intro ss σ res σ1 hrun; simp [run1] at hrun
  | succ n ih =>
    intro ss σ res σ1 hrun hwf hf hfx hcf hcne hsh
    cases ss with
    | nil =>
      simp only [run1, Option.some.injEq, Prod.mk.injEq] at hrun
      obtain ⟨-, rfl⟩ := hrun
      exact SP_refl x f σ
    | cons s rest =>
      simp only [run1] at hrun
      simp only [stmtsCallFree, Bool.and_eq_true] at hcf
      simp only [shadowList, Bool.and_eq_true, Bool.or_eq_true] at hsh
      have hcfs : taskCallFree (.tStmt s) = true := hcf.1
      have hcfr : taskCallFree (.tStmts rest) = true := hcf.2
      split at hrun
      · rename_i σa hs1
        have hspa := runPreserves x f n (.tStmt s) σ _ σa hs1 hwf hf hfx hcfs
          (Or.inr ⟨hsh.1, hcne⟩)
        obtain ⟨hwfa, hfa, hfxa, hcura, hprot⟩ := guardAfter x f σ σa hwf hf hfx hspa
        cases hdv : declaresVar x s with
        | false =>
          have hshr : shadowList x rest = true := by
            rcases hsh.2 with h1 | h1
            · rw [hdv] at h1; exact absurd h1 (by simp)
            · exact h1
          exact SP_trans x f σ σa σ1 hspa
            (ih rest σa res σ1 hrun hwfa hfa hfxa hcfr (by rw [hcura]; exact hcne) hshr)
        | true =>
          cases s with
          | sVar name init =>
            have hnx : name.lexeme = x := by
              simpa [declaresVar] using hdv
            have hvc : hasVarAt σa σa.cur x = true := by
              rw [← hnx]
              exact sVar_normal_hasVar n name init σ σa hs1 hcfs hwfa
            have hpa : protectedFrom σa x f := by
              unfold protectedFrom
              rw [resolve_found σa σa.cur x hvc]
              simp only [ne_eq, Option.some.injEq]
              rw [hcura]
              exact hcne
            exact SP_trans x f σ σa σ1 hspa
              (runPreserves x f n (.tStmts rest) σa res σ1 hrun hwfa hfa hfxa hcfr
                (Or.inl hpa))
          | sExpression e => simp [declaresVar] at hdv
          | sPrint e => simp [declaresVar] at hdv
          | sBlock ss1 => simp [declaresVar] at hdv
          | sIf c t els => simp [declaresVar] at hdv
          | sWhile c b => simp [declaresVar] at hdv
          | sBreak => simp [declaresVar] at hdv
          | sFunction nm ps bd => simp [declaresVar] at hdv
          | sReturn kw v => simp [declaresVar] at hdv
      · exact runPreserves x f n (.tStmt s) σ res σ1 hrun hwf hf hfx hcfs
          (Or.inr ⟨hsh.1, hcne⟩)

/-- The witness state of claim C7 is well formed. -/
theorem wf_C7W : wfState σC7W := by
  constructor
  · decide
  · intro i hi p hp
    have hi1 : i = 0 := by
      simpa [σC7W] using hi
    subst hi1
    simp [σC7W, IState.frame] at hp

/-- C1: the claim says a `Binary` expression whose operator is `COMMA`
evaluates the left operand, discards it, and returns the *right* operand's
value.  In the source, `visitBinaryExpr` has no `COMMA` case at all: both
operands are evaluated, then the switch falls through to `return null`.
This theorem evaluates the code at the failing input `print (1, 2);`: the
operator switch yields `nil` on `1 , 2`, and the whole pipeline prints
`"nil"` — not `"2"` as the claim requires. -/
theorem commaEvaluatesToNil :
    binaryOp ⟨.COMMA, ",", none, 1⟩ (.vnum 1) (.vnum 2) = .ok .vnil ∧
    (Value.vnil ≠ Value.vnum 2) ∧
    run 999 "print (1, 2);" 0 = some (.ran .completed, ["nil"]) :=
  ⟨rfl, fun h => Value.noConfusion h, rfl⟩

/-- C2: the claim says the lexeme `break` is in the scanner's keyword table
and scans as a `BREAK` token.  In the source the table (`Scanner.js` lines
13-30) has no `"break"` entry, so `break` scans as an `IDENTIFIER` — even
though `TokenType.BREAK`, `Parser.breakStatement` and
`Interpreter.visitBreakStmt` all exist.  This theorem evaluates the scanner
at the failing input `"break"`. -/
theorem breakLexesAsIdentifier :
    keywords "break" = none ∧
    scanTokens "break" = [⟨.IDENTIFIER, "break", none, 1⟩, ⟨.EOF, "", none, 1⟩] :=
  ⟨rfl, rfl⟩

/-- C3: the claim says the factorial program parses without error and prints
`120`.  The current parser has no `funDecl`, `returnStmt` or `call` rule, so
it reports "Expect expression." at `fun` (and four more errors while
recovering), `hadError` is set, and the driver never interprets: the output
is empty, not `120`. -/
theorem funDeclarationFailsToParse :
    (∃ σ, parseProgram 400
        (scanTokens "fun f(n){ if (n<=1) return 1; return n*f(n-1); } print f(5);") =
        some ([], σ) ∧
      σ.errors.map (fun e : Token × String => (e.1.lexeme, e.2)) =
        [("fun", "Expect expression."), ("return", "Expect expression."),
         ("return", "Expect expression."), ("\x7d", "Expect expression."),
         ("(", "Expect ';' after value.")]) ∧
    run 400 "fun f(n){ if (n<=1) return 1; return n*f(n-1); } print f(5);" 0 =
      some (.staticError, []) :=
  ⟨⟨_, rfl, rfl⟩, rfl⟩

/-- C4: the equality semantics of `Interpreter.isEqual` and the `==`/`!=`
cases of `visitBinaryExpr`: `nil == nil` holds; values of distinct kinds are
never equal; within a kind the comparison is structural — numbers by value,
strings by content, booleans by bit, callables by (reference) identity, which
the model renders as the allocation id — and `!=` is the boolean negation of
`==`. -/
theorem equalitySemantics :
    (isEqual .vnil .vnil = true) ∧
    (∀ a b : Value, a.kind ≠ b.kind → isEqual a b = false) ∧
    (∀ p q : ℚ, isEqual (.vnum p) (.vnum q) = decide (p = q)) ∧
    (∀ s t : String, isEqual (.vstr s) (.vstr t) = decide (s = t)) ∧
    (∀ a b : Bool, isEqual (.vbool a) (.vbool b) = decide (a = b)) ∧
    (∀ i j : ℕ, ∀ c d : CallableData,
      isEqual (.vcallable i c) (.vcallable j d) = decide (i = j)) ∧
    (∀ op : Token, op.type = .EQUAL_EQUAL → ∀ a b : Value,
      binaryOp op a b = .ok (.vbool (isEqual a b))) ∧
    (∀ op : Token, op.type = .BANG_EQUAL → ∀ a b : Value,
      binaryOp op a b = .ok (.vbool (! isEqual a b))) := by
  refine ⟨rfl, ?_, ?_, ?_, ?_, ?_, ?_, ?_⟩
  · intro a b h
    cases a <;> cases b <;> simp_all [isEqual, strictEq, Value.kind]
  · intro p q; rfl
  · intro s t; rfl
  · intro a b; cases a <;> cases b <;> rfl
  · intro i j c d; rfl
  · intro op h a b; simp only [binaryOp, h]
  · intro op h a b; simp only [binaryOp, h]

/-- C4 witness: the equality semantics at concrete inputs — `nil == nil`,
a cross-kind comparison, a numeric comparison and a `!=`. -/
theorem equalitySemanticsWitness :
    isEqual .vnil .vnil = true ∧
    isEqual (.vnil) (.vnum 0) = false ∧
    binaryOp ⟨.EQUAL_EQUAL, "==", none, 1⟩ (.vnum 1) (.vnum 1) = .ok (.vbool true) ∧
    binaryOp ⟨.BANG_EQUAL, "!=", none, 1⟩ (.vstr "a") (.vstr "b") = .ok (.vbool true) := by
  refine ⟨equalitySemantics.1, equalitySemantics.2.1 _ _ (by decide), ?_, ?_⟩
  · rw [equalitySemantics.2.2.2.2.2.2.1 ⟨.EQUAL_EQUAL, "==", none, 1⟩ rfl]; rfl
  · rw [equalitySemantics.2.2.2.2.2.2.2 ⟨.BANG_EQUAL, "!=", none, 1⟩ rfl]; rfl

/-- C5: for the operators `-`, `*`, `/`, `>`, `>=`, `<`, `<=` of
`visitBinaryExpr`: if either evaluated operand is not a number the result is
the runtime error "Operands must be numbers." carrying the operator token;
for `/` with numeric operands and a zero right operand it is the runtime
error "Division by zero." carrying the `/` token (hence carrying its line);
otherwise the operator's numeric/comparison result is returned. -/
theorem numericOperatorSemantics :
    ∀ op : Token, op.type ∈ numOps → ∀ l r : Value,
      (¬ (l.isNum ∧ r.isNum) →
        binaryOp op l r = .error ⟨op, "Operands must be numbers."⟩) ∧
      (op.type = .SLASH → ∀ a : ℚ, l = .vnum a → r = .vnum 0 →
        binaryOp op l r = .error ⟨op, "Division by zero."⟩) ∧
      (∀ a b : ℚ, l = .vnum a → r = .vnum b → ¬ (op.type = .SLASH ∧ b = 0) →
        binaryOp op l r = .ok (numOpResult op.type a b)) := by
  intro op hmem l r
  refine ⟨?_, ?_, ?_⟩
  · intro h
    simp only [numOps, List.mem_cons, List.not_mem_nil, or_false] at hmem
    rcases hmem with h1 | h1 | h1 | h1 | h1 | h1 | h1 <;>
      cases l <;> cases r <;> simp_all [binaryOp, Value.isNum]
  · intro hop a hl hr
    subst hl; subst hr
    simp [binaryOp, hop]
  · intro a b hl hr hz
    subst hl; subst hr
    simp only [numOps, List.mem_cons, List.not_mem_nil, or_false] at hmem
    rcases hmem with h1 | h1 | h1 | h1 | h1 | h1 | h1 <;>
      simp_all [binaryOp, numOpResult]

/-- C5 witness: `1 / 0` raises "Division by zero." at the `/` token (line 3
here), `true * 1` raises "Operands must be numbers.", and `5 - 3` returns
`2`. -/
theorem numericOperatorSemanticsWitness :
    binaryOp ⟨.SLASH, "/", none, 3⟩ (.vnum 1) (.vnum 0) =
      .error ⟨⟨.SLASH, "/", none, 3⟩, "Division by zero."⟩ ∧
    binaryOp ⟨.STAR, "*", none, 1⟩ (.vbool true) (.vnum 1) =
      .error ⟨⟨.STAR, "*", none, 1⟩, "Operands must be numbers."⟩ ∧
    binaryOp ⟨.MINUS, "-", none, 1⟩ (.vnum 5) (.vnum 3) = .ok (.vnum 2) := by
  refine ⟨?_, ?_, ?_⟩
  · exact (numericOperatorSemantics ⟨.SLASH, "/", none, 3⟩ (by decide) _ _).2.1 rfl 1 rfl rfl
  · exact (numericOperatorSemantics ⟨.STAR, "*", none, 1⟩ (by decide) _ _).1 (by decide)
  · have h := (numericOperatorSemantics ⟨.MINUS, "-", none, 1⟩ (by decide)
      (.vnum 5) (.vnum 3)).2.2 5 3 rfl rfl (by decide)
    rw [h]; simp only [numOpResult]; norm_num

/-- C6: the `+` case of `visitBinaryExpr`: two numbers add; otherwise, if at
least one operand is a string, both operands are stringified and
concatenated; otherwise the runtime error "Operands must be two numbers or
two strings." is raised with the operator token. -/
theorem plusSemantics :
    ∀ op : Token, op.type = .PLUS → ∀ l r : Value,
      (∀ a b : ℚ, l = .vnum a → r = .vnum b → binaryOp op l r = .ok (.vnum (a + b))) ∧
      (¬ (l.isNum ∧ r.isNum) → (l.isStr ∨ r.isStr) →
        binaryOp op l r = .ok (.vstr (stringify l ++ stringify r))) ∧
      (¬ (l.isNum ∧ r.isNum) → ¬ l.isStr → ¬ r.isStr →
        binaryOp op l r = .error ⟨op, "Operands must be two numbers or two strings."⟩) := by
  intro op hop l r
  refine ⟨?_, ?_, ?_⟩
  · intro a b hl hr; subst hl; subst hr; simp [binaryOp, hop]
  · intro hnum hstr
    cases l <;> cases r <;> simp_all [binaryOp, Value.isNum, Value.isStr]
  · intro hnum hsl hsr
    cases l <;> cases r <;> simp_all [binaryOp, Value.isNum, Value.isStr]

/-- C6 witness: `"a" + 1` concatenates to `"a1"`, `2 + 3` adds to `5`, and
`true + 1` raises the two-numbers-or-two-strings error. -/
theorem plusSemanticsWitness :
    binaryOp ⟨.PLUS, "+", none, 1⟩ (.vstr "a") (.vnum 1) = .ok (.vstr "a1") ∧
    binaryOp ⟨.PLUS, "+", none, 1⟩ (.vnum 2) (.vnum 3) = .ok (.vnum 5) ∧
    binaryOp ⟨.PLUS, "+", none, 1⟩ (.vbool true) (.vnum 1) =
      .error ⟨⟨.PLUS, "+", none, 1⟩, "Operands must be two numbers or two strings."⟩ := by
  refine ⟨?_, ?_, ?_⟩
  · have h := (plusSemantics ⟨.PLUS, "+", none, 1⟩ rfl (.vstr "a") (.vnum 1)).2.1
      (by decide) (by decide)
    rw [h]; rfl
  · have h := (plusSemantics ⟨.PLUS, "+", none, 1⟩ rfl (.vnum 2) (.vnum 3)).1 2 3 rfl rfl
    rw [h]; norm_num
  · exact (plusSemantics ⟨.PLUS, "+", none, 1⟩ rfl (.vbool true) (.vnum 1)).2.2
      (by decide) (by decide) (by decide)

/-- C9: a `BreakInterrupt` raised while executing a user function's body is
not absorbed at the call boundary — `Function.call` catches only `Return`, so
the break outcome propagates to the caller — and `interpret` catches only
`RuntimeError`, so a break that reaches the top level escapes `interpret`
instead of being reported as a runtime error.  The last conjunct runs the
whole evaluator on `fun g() { break; } g();` (as an AST: those nodes are
unreachable from source text) and observes the escaped break. -/
theorem breakEscapesFunctionCall :
    (∀ (fuel idv envId : ℕ) (nm : Token) (params : List Token) (body : List Stmt)
        (args : List Value) (paren : Token) (σ σ1 : IState),
      run1 fuel (.tStmts body)
          { σ with frames := σ.frames ++ [⟨some envId, bindParams params args⟩],
                   cur := σ.frames.length } = some (.rExec .brk, σ1) →
      run1 (fuel + 1) (.tCall (.vcallable idv (.closure nm params body envId)) args paren) σ =
        some (.rEval .brk, { σ1 with cur := σ.cur })) ∧
    (∀ (fuel : ℕ) (ss : List Stmt) (σ σ1 : IState),
      executeStmts fuel ss σ = some (.brk, σ1) →
      interpret fuel ss σ = some (.escapedBreak, σ1)) ∧
    (∃ σf, interpret 99 progC9 (initState 0) = some (.escapedBreak, σf)) := by
  refine ⟨?_, ?_, ⟨_, rfl⟩⟩
  · intro fuel idv envId nm params body args paren σ σ1 h
    simp only [run1, h]
  · intro fuel ss σ σ1 h
    simp only [interpret, h]

/-- C9 witness: the call-boundary conjunct applied to a concrete callable
(body `{ break; }`) in the initial state, and the interpret conjunct applied
to a concrete break-producing statement list. -/
theorem breakEscapesFunctionCallWitness :
    (∃ σ1, run1 6 (.tCall (.vcallable 1 (.closure (identToken "g") [] [.sBreak] 0)) []
        ⟨.RIGHT_PAREN, ")", none, 1⟩) (initState 0) = some (.rEval .brk, σ1)) ∧
    (∃ σ2, interpret 9 [Stmt.sBreak] (initState 0) = some (.escapedBreak, σ2)) := by
  constructor
  · exact ⟨_, breakEscapesFunctionCall.1 5 1 0 (identToken "g") [] [.sBreak] []
      ⟨.RIGHT_PAREN, ")", none, 1⟩ (initState 0) _ rfl⟩
  · exact ⟨_, breakEscapesFunctionCall.2.1 9 [Stmt.sBreak] (initState 0) _ rfl⟩

/-- C7 (counterexample to the claim as stated): the block
`{ var x = 9; g(); }` defines a fresh `x` as its first statement and contains
no assignment to `x` at all (so in particular every assignment to `x` in it
comes after the definition), yet executing it after the prelude `var x = 1;`
and the declaration of `g` (whose body assigns `x = 2` through its closure)
changes the enclosing binding of `x` from `1` to `2` — even though the block
exits normally and the previous environment is restored.  The claim's
quantification over arbitrary block bodies is therefore wrong: a call inside
the block can mutate the outer `x` through a closure's environment chain. -/
theorem blockShadowingCounterexample :
    stmtsNoAssign "x" blockC7 = true ∧
    blockC7.head? = some (.sVar (identToken "x") (some (.literal (.lnum 9)))) ∧
    c7ctrMidView = some (.normal, 0, some (.vnum 1)) ∧
    c7ctrEndView = some (.normal, 0, some (.vnum 2)) := by
  refine ⟨by decide, rfl, ?_, ?_⟩ <;> rfl

/-- C7 (amended): for any variable `x` bound in frame `f` visible from the
enclosing scope, executing a Block statement whose statements contain no call
expression and which assigns to `x` only after its own `var x` declaration
(the statements before that declaration, and its initializer, are free of
assignments to `x`) leaves the enclosing binding of `x` unchanged when the
block exits, on every exit path — normal completion, runtime error, return,
or break — because the block's environment is a child that shadows rather
than mutates, and the previous environment is always restored. -/
theorem blockShadowingPreservesOuter (x : String) (f : ℕ) (stmts : List Stmt)
    (n : ℕ) (σ : IState) (res : TRes) (σ1 : IState)
    (hwf : wfState σ) (hf : f < σ.frames.length) (hfx : hasVarAt σ f x = true)
    (hcf : stmtsCallFree stmts = true) (hsh : shadowList x stmts = true)
    (hrun : run1 n (.tStmt (.sBlock stmts)) σ = some (res, σ1)) :
    σ1.cur = σ.cur ∧
    List.lookup x (σ1.frame f).vars = List.lookup x (σ.frame f).vars := by
  cases n with
  | zero => simp [run1] at hrun
  | succ n =>
    simp only [run1] at hrun
    split at hrun
    · rename_i rr σq hs1
      simp only [Option.some.injEq, Prod.mk.injEq] at hrun
      obtain ⟨-, rfl⟩ := hrun
      have hwfp := wf_push σ hwf []
      have hfp : f < ({ σ with frames := σ.frames ++ [⟨some σ.cur, []⟩], cur := σ.frames.length } : IState).frames.length := by
        show f < (σ.frames ++ [(⟨some σ.cur, []⟩ : Frame)]).length
        simp only [List.length_append, List.length_cons, List.length_nil]
        omega
      have hfxp : hasVarAt { σ with frames := σ.frames ++ [⟨some σ.cur, []⟩], cur := σ.frames.length } f x = true := by
        unfold hasVarAt IState.frame
        simp only []
        rw [getD_append_lt _ _ _ _ hf]
        exact hfx
      have hcnep : ({ σ with frames := σ.frames ++ [⟨some σ.cur, []⟩], cur := σ.frames.length } : IState).cur ≠ f := by
        show σ.frames.length ≠ f
        omega
      have hsp := stmtsPreserve x f n stmts _ rr σq hs1 hwfp hfp hfxp hcf hcnep hsh
      have hsp2 := SP_block x f σ σq hwf hf hsp
      exact ⟨hsp2.1, hsp2.2.2.2.2.2.1⟩
    · simp at hrun

/-- C7 witness: the amended theorem applied to the concrete block
`{ var x = 9; x = 7; }` in a state whose global frame binds `x = 1`: the
current environment and the global binding of `x` are unchanged. -/
theorem blockShadowingPreservesOuterWitness :
    c7wView = some (σC7W.cur, List.lookup "x" (σC7W.frame 0).vars) := by
  obtain ⟨res, σ1, hrun⟩ :
      ∃ res σ1, run1 10 (.tStmt (.sBlock blockC7W)) σC7W = some (res, σ1) :=
    ⟨.rExec .normal, _, rfl⟩
  obtain ⟨hc, hl⟩ := blockShadowingPreservesOuter "x" 0 blockC7W 10 σC7W res σ1
    wf_C7W (by decide) (by decide) (by decide) (by decide) hrun
  unfold c7wView
  rw [hrun]
  simp only [Option.map_some', hc, hl]

end Oxente
